import Mathlib

/-!
# stego_lsb.c : PGM codec and 4-bit LSB steganography

A shallow embedding of `src/stego_lsb.c.c`.

* A sample buffer (`unsigned char *`) is a `List Nat`; an 8-bit sample is a
  number below 256 and every store into a buffer reduces modulo 256.
* `int` values are `Int`.  The product `width * height` is computed in `int`
  by the C code; a product outside the range of `int` is undefined behaviour.
* A function returns `none` exactly when the C execution has undefined
  behaviour that the model does not resolve: signed overflow of
  `width * height`, or an access to a buffer at an index that is not below
  its length.
* A scanf conversion of a token that does not fit its target type is undefined
  in ISO C; the model follows the GNU C library with a 64-bit `long`: the
  token is converted by `strtol` (`%d`) or `strtoul` (`%hhu`), which saturate
  at the range of `long` / `unsigned long`, and the result is truncated to
  the target type (`int`, `unsigned char`).
* A file is the sequence of bytes the C stream delivers (`List Nat`); whether
  `fopen` succeeds is an input of the model.  Writes to an open stream are
  taken to succeed (the code never checks `fprintf`, `fwrite`, `fclose`).
  Newline translation of text-mode streams happens below this level.
* The locals `w`, `h` of `readPGMText` are uninitialised until `sscanf` assigns
  them; their indeterminate initial values are parameters `w0`, `h0`.
* The two buffers handed to `embedLSB` / `extractLSB` are distinct objects.
-/

namespace StegoLSB

/-! ## Machine integers -/

/-- Largest value of a C `int` (32 bits). -/
def INT_MAX : Int := 2147483647

/-- Smallest value of a C `int` (32 bits). -/
def INT_MIN : Int := -2147483648

/-- The loop bound `width * height`, computed in `int`: `none` when the product
overflows, otherwise the number of iterations of `for (i = 0; i < width * height; i++)`
(zero when the product is not positive). -/
def pixelCount (width height : Int) : Option Nat :=
  if INT_MIN ≤ width * height ∧ width * height ≤ INT_MAX then
    some (width * height).toNat
  else none

/-! ## The LSB transform -/

/-- Loop of `embedLSB`: `todo` iterations remain, the next index is `i`.
Body: `coverPixels[i] = (coverPixels[i] / 16) * 16 + (secretPixels[i] / 16);`
(the sum is computed in `int` and stored into an `unsigned char`). -/
def embedLSBLoop (secretPixels : List Nat) : Nat → Nat → List Nat → Option (List Nat)
  | 0, _, coverPixels => some coverPixels
  | todo + 1, i, coverPixels =>
    match coverPixels[i]?, secretPixels[i]? with
    | some c, some s =>
      embedLSBLoop secretPixels todo (i + 1)
        (coverPixels.set i (((c / 16) * 16 + s / 16) % 256))
    | _, _ => none

/-- Model of `void embedLSB(coverPixels, secretPixels, width, height)`: the result is the
content of `coverPixels` after the call. -/
def embedLSB (coverPixels secretPixels : List Nat) (width height : Int) :
    Option (List Nat) :=
  match pixelCount width height with
  | none => none
  | some n => embedLSBLoop secretPixels n 0 coverPixels

/-- Loop of `extractLSB`: body `outputPixels[i] = (coverPixels[i] % 16) * 16;`. -/
def extractLSBLoop (coverPixels : List Nat) : Nat → Nat → List Nat → Option (List Nat)
  | 0, _, outputPixels => some outputPixels
  | todo + 1, i, outputPixels =>
    match coverPixels[i]? with
    | some c =>
      if i < outputPixels.length then
        extractLSBLoop coverPixels todo (i + 1)
          (outputPixels.set i (((c % 16) * 16) % 256))
      else none
    | none => none

/-- Model of `void extractLSB(coverPixels, outputPixels, width, height)`: the result is the
content of `outputPixels` after the call. -/
def extractLSB (coverPixels outputPixels : List Nat) (width height : Int) :
    Option (List Nat) :=
  match pixelCount width height with
  | none => none
  | some n => extractLSBLoop coverPixels n 0 outputPixels

/-- The loop of `embedLSB` on the memory state `(coverPixels, secretPixels)` holding both
arrays as distinct objects: the only store of the body goes to `coverPixels[i]`. -/
def embedLSBMemLoop : Nat → Nat → List Nat × List Nat → Option (List Nat × List Nat)
  | 0, _, m => some m
  | todo + 1, i, m =>
    match m.1[i]?, m.2[i]? with
    | some c, some s =>
      embedLSBMemLoop todo (i + 1) (m.1.set i (((c / 16) * 16 + s / 16) % 256), m.2)
    | _, _ => none

/-- Model of `embedLSB` that returns the content of both arrays after the call. -/
def embedLSBMem (m : List Nat × List Nat) (width height : Int) :
    Option (List Nat × List Nat) :=
  match pixelCount width height with
  | none => none
  | some n => embedLSBMemLoop n 0 m

/-- Every element of the buffer is an 8-bit sample. -/
def IsByteBuffer (b : List Nat) : Prop := ∀ x ∈ b, x < 256

instance (b : List Nat) : Decidable (IsByteBuffer b) := by
  unfold IsByteBuffer; infer_instance

/-! ## C library: characters, formatted output, formatted input -/

/-- The bytes of a string literal of the C source (all ASCII). -/
def bytes (s : String) : List Nat := s.toList.map Char.toNat

/-- C `isspace` in the "C" locale: space, `\t`, `\n`, `\v`, `\f`, `\r`. -/
def isspace (c : Nat) : Bool := c == 32 || (9 ≤ c && c ≤ 13)

/-- C `isdigit`. -/
def isdigit (c : Nat) : Bool := 48 ≤ c && c ≤ 57

/-- Decimal digits of `n`, most significant first, as ASCII bytes; `fuel` bounds the
number of digits. -/
def printNatFuel : Nat → Nat → List Nat
  | 0, _ => []
  | fuel + 1, n =>
    if n < 10 then [48 + n] else printNatFuel fuel (n / 10) ++ [48 + n % 10]

/-- Output of `printf("%d", n)` for a non-negative `n`. -/
def printNat (n : Nat) : List Nat := printNatFuel (n + 1) n

/-- Output of `printf("%d", v)`. -/
def printInt (v : Int) : List Nat :=
  if v < 0 then 45 :: printNat (-v).toNat else printNat v.toNat

/-- Characters stored by `fgets` when at most `k` characters may be read: reading stops
after a newline (which is stored), at end of file, or after `k` characters.  Returns the
characters read and the rest of the stream. -/
def fgetsChars : Nat → List Nat → List Nat × List Nat
  | 0, file => ([], file)
  | _ + 1, [] => ([], [])
  | k + 1, c :: file =>
    if c = 10 then ([c], file)
    else ((c :: (fgetsChars k file).1), (fgetsChars k file).2)

/-- Model of `fgets(buffer, size, file)`: `none` is the `NULL` return (end of file before
any character); otherwise the new content of `buffer` (the characters read followed by the
terminating `0`) and the rest of the stream. -/
def fgets (size : Nat) (file : List Nat) : Option (List Nat × List Nat) :=
  match file with
  | [] => none
  | _ :: _ => some ((fgetsChars (size - 1) file).1 ++ [0], (fgetsChars (size - 1) file).2)

/-- The C string held in a character array: the bytes before the first `0`. -/
def cstr (buffer : List Nat) : List Nat := buffer.takeWhile (fun c => c != 0)

/-- White space skipped by a scanf conversion. -/
def skipSpaces : List Nat → List Nat
  | [] => []
  | c :: s => if isspace c then skipSpaces s else c :: s

/-- The longest run of decimal digits at the head of the input, accumulated into `acc`. -/
def scanDigits : List Nat → Nat → Nat × List Nat
  | [], acc => (acc, [])
  | c :: s, acc => if isdigit c then scanDigits s (acc * 10 + (c - 48)) else (acc, c :: s)

/-- The input item of a scanf integer conversion (`%d`, `%hhu`): skip white space, accept
an optional sign and a non-empty run of decimal digits.  Returns whether a minus sign was
read, the number denoted by the digits and the unread rest of the input; `none` when the
directive fails (no digits, or end of input).  No conversion to a C type happens here. -/
def scanItem (s : List Nat) : Option (Bool × Nat × List Nat) :=
  match skipSpaces s with
  | [] => none
  | c :: t =>
    if c = 45 then
      match t with
      | [] => none
      | d :: _ =>
        if isdigit d then some (true, (scanDigits t 0).1, (scanDigits t 0).2) else none
    else if c = 43 then
      match t with
      | [] => none
      | d :: _ =>
        if isdigit d then some (false, (scanDigits t 0).1, (scanDigits t 0).2) else none
    else if isdigit c then
      some (false, (scanDigits (c :: t) 0).1, (scanDigits (c :: t) 0).2)
    else none

/-- Largest value of a C `long` (64 bits). -/
def LONG_MAX : Int := 9223372036854775807

/-- Smallest value of a C `long` (64 bits). -/
def LONG_MIN : Int := -9223372036854775808

/-- Largest value of a C `unsigned long` (64 bits). -/
def ULONG_MAX : Nat := 18446744073709551615

/-- Result of `strtol` on a sign and a digit string denoting `mag`: the signed value,
saturated at `LONG_MIN` / `LONG_MAX`. -/
def strtol (neg : Bool) (mag : Nat) : Int :=
  if neg then (if LONG_MIN ≤ -(mag : Int) then -(mag : Int) else LONG_MIN)
  else (if (mag : Int) ≤ LONG_MAX then (mag : Int) else LONG_MAX)

/-- Result of `strtoul` on a sign and a digit string denoting `mag`: `ULONG_MAX` when the
digits overflow, otherwise the value, negated in `unsigned long` after a minus sign. -/
def strtoul (neg : Bool) (mag : Nat) : Nat :=
  if ULONG_MAX < mag then ULONG_MAX
  else if neg then (ULONG_MAX + 1 - mag) % (ULONG_MAX + 1) else mag

/-- Conversion of a `long` to `int`: reduction modulo 2^32 into the range of `int`. -/
def longToInt (v : Int) : Int := (v + 2147483648) % 4294967296 - 2147483648

/-- The scanf conversion `%d` into an `int`: the input item is converted by `strtol` and
the `long` result is truncated to `int`.  Returns the value stored and the unread rest of
the input; `none` when the directive fails. -/
def scanInt (s : List Nat) : Option (Int × List Nat) :=
  match scanItem s with
  | none => none
  | some (neg, mag, rest) => some (longToInt (strtol neg mag), rest)

/-- The scanf conversion `%hhu` into an `unsigned char`: the input item is converted by
`strtoul` and the `unsigned long` result is truncated to 8 bits.  Returns the byte stored
and the unread rest of the input; `none` when the directive fails. -/
def scanUChar (s : List Nat) : Option (Nat × List Nat) :=
  match scanItem s with
  | none => none
  | some (neg, mag, rest) => some (strtoul neg mag % 256, rest)

/-- Model of `sscanf(buffer, "%d %d", &w, &h)` whose return value the code ignores: a
variable keeps its previous (indeterminate) value `w0` / `h0` when its conversion is not
reached or fails. -/
def sscanfDims (s : List Nat) (w0 h0 : Int) : Int × Int :=
  match scanInt s with
  | none => (w0, h0)
  | some (w, s1) =>
    match scanInt s1 with
    | none => (w, h0)
    | some (h, _) => (w, h)

/-! ## The PGM codec -/

/-- The `do { fgets } while (buffer[0] == '#')` loop of `readPGMText`.  Every successful
`fgets` consumes at least one byte, so `fuel` above the length of the stream is never
exhausted.  `none` is the `NULL` return of `fgets`; otherwise the last buffer read and the
rest of the stream. -/
def skipComments : Nat → List Nat → Option (List Nat × List Nat)
  | 0, _ => none
  | fuel + 1, file =>
    match fgets 16 file with
    | none => none
    | some (buffer, file1) =>
      if buffer.getD 0 0 = 35 then skipComments fuel file1 else some (buffer, file1)

/-- The sample loop of `readPGMText`: `fscanf(file, "%hhu", &pixels[i])` for `todo` more
samples starting at index `i`.  Returns the return code and the buffer. -/
def readPixels : Nat → Nat → List Nat → List Nat → Option (Int × List Nat)
  | 0, _, _, pixels => some (0, pixels)
  | todo + 1, i, file, pixels =>
    match scanUChar file with
    | none => some (1, pixels)
    | some (b, file1) =>
      if i < pixels.length then
        readPixels todo (i + 1) file1 (pixels.set i b)
      else none

/-- Model of `int readPGMText(filename, pixels, width, height)`.  `file` is the content
of the named file (`none` when `fopen` fails); `w0`, `h0` are the indeterminate initial
values of the locals `w`, `h`.  Returns the return code and the content of `pixels`
after the call. -/
def readPGMText (file : Option (List Nat)) (w0 h0 : Int) (pixels : List Nat)
    (width height : Int) : Option (Int × List Nat) :=
  match file with
  | none => some (1, pixels)
  | some f0 =>
    match fgets 16 f0 with
    | none => some (1, pixels)
    | some (buffer, f1) =>
      if buffer.getD 0 0 ≠ 80 ∨ buffer.getD 1 0 ≠ 50 then some (1, pixels)
      else
        match skipComments (f1.length + 1) f1 with
        | none => some (1, pixels)
        | some (buffer1, f2) =>
          match scanInt f2 with
          | none => some (1, pixels)
          | some (maxVal, f3) =>
            if (sscanfDims (cstr buffer1) w0 h0).1 ≠ width
                ∨ (sscanfDims (cstr buffer1) w0 h0).2 ≠ height ∨ maxVal ≠ 255 then
              some (1, pixels)
            else
              match pixelCount width height with
              | none => none
              | some n => readPixels n 0 f3 pixels

/-- The header phase of `readPGMText` (source lines 17 to 43) on its own: `none` when one
of the `return 1` statements before the sample loop is taken, otherwise the position of the
stream at which the sample loop starts. -/
def readPGMHeader (file : Option (List Nat)) (w0 h0 : Int) (width height : Int) :
    Option (List Nat) :=
  match file with
  | none => none
  | some f0 =>
    match fgets 16 f0 with
    | none => none
    | some (buffer, f1) =>
      if buffer.getD 0 0 ≠ 80 ∨ buffer.getD 1 0 ≠ 50 then none
      else
        match skipComments (f1.length + 1) f1 with
        | none => none
        | some (buffer1, f2) =>
          match scanInt f2 with
          | none => none
          | some (maxVal, f3) =>
            if (sscanfDims (cstr buffer1) w0 h0).1 ≠ width
                ∨ (sscanfDims (cstr buffer1) w0 h0).2 ≠ height ∨ maxVal ≠ 255 then
              none
            else some f3

/-- The sample tokens at the head of a stream, as the bytes `%hhu` makes of them: the
tokens are taken in order, at most `n` of them, up to the first place where the conversion
fails. -/
def sampleTokens : Nat → List Nat → List Nat
  | 0, _ => []
  | n + 1, file =>
    match scanUChar file with
    | none => []
    | some (b, file1) => b :: sampleTokens n file1

/-- The sample loop of `writePGMText`: `fprintf(file, "%d\n", pixels[i])`, appending to the
bytes `out` written so far. -/
def writePixelsText (pixels : List Nat) : Nat → Nat → List Nat → Option (List Nat)
  | 0, _, out => some out
  | todo + 1, i, out =>
    match pixels[i]? with
    | none => none
    | some p => writePixelsText pixels todo (i + 1) (out ++ (printInt (p : Int) ++ [10]))

/-- Model of `int writePGMText(filename, pixels, width, height)`.  `canOpen` tells whether
`fopen` succeeds.  Returns the return code and the bytes written to the file. -/
def writePGMText (canOpen : Bool) (pixels : List Nat) (width height : Int) :
    Option (Int × List Nat) :=
  if canOpen = false then some (1, [])
  else
    match pixelCount width height with
    | none => none
    | some n =>
      match writePixelsText pixels n 0
          (bytes "P2\n# Created by stego_lsb.c\n" ++ printInt width ++ [32]
            ++ printInt height ++ bytes "\n255\n") with
      | none => none
      | some out => some (0, out)

/-- Model of `int writePGMBinary(filename, pixels, width, height)`.  The header is written
with `fprintf`, then `fwrite(pixels, 1, width * height, file)` writes the first
`width * height` bytes of the buffer.  The count is the `int` product converted to `size_t`:
a negative product becomes a count beyond every object, so the read leaves the buffer
(`none`), as does a count above the length of the buffer.  Returns the return code and the
bytes written to the file. -/
def writePGMBinary (canOpen : Bool) (pixels : List Nat) (width height : Int) :
    Option (Int × List Nat) :=
  if canOpen = false then some (1, [])
  else if INT_MIN ≤ width * height ∧ width * height ≤ INT_MAX then
    if width * height < 0 then none
    else if (width * height).toNat ≤ pixels.length then
      some (0, bytes "P5\n# Created by stego_lsb.c\n" ++ printInt width ++ [32]
        ++ printInt height ++ bytes "\n255\n" ++ pixels.take (width * height).toNat)
    else none
  else none

/-! ## Decimal numerals (specification side) -/

/-- The number denoted by a string of ASCII decimal digits. -/
def decimalValue (ds : List Nat) : Nat := ds.foldl (fun a c => a * 10 + (c - 48)) 0

/-- `ds` is the decimal representation of `v`: a non-empty string of ASCII digits, without
a leading zero unless it is the single digit `0`, that denotes `v`. -/
def IsDecimalOf (ds : List Nat) (v : Nat) : Prop :=
  ds ≠ [] ∧ (∀ c ∈ ds, 48 ≤ c ∧ c ≤ 57) ∧ (ds.head? = some 48 → ds = [48]) ∧
    decimalValue ds = v


/-! ## Arithmetic of nibbles -/

theorem and_F0_eq (c : Nat) (hc : c < 256) : c &&& 0xF0 = (c / 16) * 16 := by
  have h : ∀ c < 256, c &&& 0xF0 = (c / 16) * 16 := by
    set_option maxRecDepth 100000 in decide
  exact h c hc

theorem and_0F_eq (c : Nat) : c &&& 0x0F = c % 16 :=
  Nat.and_pow_two_sub_one_eq_mod c 4

theorem shiftRight_four (s : Nat) : s >>> 4 = s / 16 := by
  simp [Nat.shiftRight_eq_div_pow]

theorem shiftLeft_four (s : Nat) : s <<< 4 = s * 16 := by
  simp [Nat.shiftLeft_eq]

theorem mul16_or_eq_add (a b : Nat) (hb : b < 16) : a * 16 ||| b = a * 16 + b := by
  have h := Nat.mul_add_lt_is_or (i := 4) hb a
  simp only [Nat.reducePow] at h
  rw [Nat.mul_comm a 16]
  exact h.symm

/-- The byte stored by one iteration of `embedLSB` is the bitwise form of the spec. -/
theorem embed_arith_eq_bitwise (c s : Nat) (hc : c < 256) (hs : s < 256) :
    (c / 16) * 16 + s / 16 ≤ 255 ∧
      (c / 16) * 16 + s / 16 = (c &&& 0xF0) ||| (s >>> 4) := by
  refine ⟨by omega, ?_⟩
  rw [and_F0_eq c hc, shiftRight_four, mul16_or_eq_add _ _ (by omega)]

/-! ## The loop bound -/

theorem pixelCount_of_length (len : Nat) (width height : Int)
    (hrange : width * height ≤ INT_MAX) (hlen : (len : Int) = width * height) :
    pixelCount width height = some len := by
  unfold pixelCount
  have h0 : INT_MIN ≤ width * height := by
    rw [← hlen]; unfold INT_MIN; omega
  rw [if_pos ⟨h0, hrange⟩, ← hlen]
  simp

theorem pixelCount_nonpos (width height : Int) (h : width * height ≤ 0)
    (hmin : INT_MIN ≤ width * height) : pixelCount width height = some 0 := by
  unfold pixelCount
  have h1 : width * height ≤ INT_MAX := by unfold INT_MAX; omega
  rw [if_pos ⟨hmin, h1⟩]
  congr 1
  omega

/-! ## embedLSB and extractLSB -/

theorem embedLSBLoop_spec (secret : List Nat) :
    ∀ (todo i : Nat) (cover : List Nat), i + todo ≤ cover.length → i + todo ≤ secret.length →
      ∃ r, embedLSBLoop secret todo i cover = some r ∧ r.length = cover.length ∧
        ∀ j, r[j]? = if i ≤ j ∧ j < i + todo
          then some (((cover.getD j 0 / 16) * 16 + secret.getD j 0 / 16) % 256)
          else cover[j]? := by
  intro todo
  induction todo with
  | zero =>
    intro i cover _ _
    refine ⟨cover, rfl, rfl, fun j => ?_⟩
    have : ¬ (i ≤ j ∧ j < i + 0) := by omega
    rw [if_neg this]
  | succ todo ih =>
    intro i cover hc hs
    have hic : i < cover.length := by omega
    have his : i < secret.length := by omega
    obtain ⟨r, hr, hlen, hget⟩ := ih (i + 1)
      (cover.set i (((cover[i] / 16) * 16 + secret[i] / 16) % 256))
      (by simp; omega) (by omega)
    refine ⟨r, ?_, by simpa using hlen, fun j => ?_⟩
    · simp only [embedLSBLoop, List.getElem?_eq_getElem hic, List.getElem?_eq_getElem his]
      exact hr
    · rw [hget j]
      by_cases h1 : i + 1 ≤ j ∧ j < i + 1 + todo
      · have h2 : i ≤ j ∧ j < i + (todo + 1) := by omega
        have h3 : i ≠ j := by omega
        simp [h1, h2, List.getD_eq_getElem?_getD, List.getElem?_set, h3]
      · by_cases h4 : j = i
        · subst h4
          have h2 : j ≤ j ∧ j < j + (todo + 1) := by omega
          simp [h1, h2, List.getD_eq_getElem?_getD, List.getElem?_set, hic, his]
        · have h2 : ¬ (i ≤ j ∧ j < i + (todo + 1)) := by omega
          have h3 : i ≠ j := by omega
          simp [h1, h2, List.getElem?_set, h3]

theorem embedLSBLoop_none (secret : List Nat) :
    ∀ (todo i : Nat) (cover : List Nat), i ≤ cover.length → i ≤ secret.length →
      cover.length < i + todo ∨ secret.length < i + todo →
        embedLSBLoop secret todo i cover = none := by
  intro todo
  induction todo with
  | zero =>
    intro i cover h1 h2 h
    omega
  | succ todo ih =>
    intro i cover h1 h2 h
    by_cases hic : i < cover.length
    · by_cases his : i < secret.length
      · simp only [embedLSBLoop, List.getElem?_eq_getElem hic, List.getElem?_eq_getElem his]
        apply ih
        · simp; omega
        · omega
        · simp; omega
      · have : secret[i]? = none := List.getElem?_eq_none (by omega)
        simp only [embedLSBLoop, List.getElem?_eq_getElem hic, this]
    · have : cover[i]? = none := List.getElem?_eq_none (by omega)
      simp only [embedLSBLoop, this]

theorem extractLSBLoop_none (cover : List Nat) :
    ∀ (todo i : Nat) (out : List Nat), i ≤ cover.length → i ≤ out.length →
      cover.length < i + todo ∨ out.length < i + todo →
        extractLSBLoop cover todo i out = none := by
  intro todo
  induction todo with
  | zero =>
    intro i out h1 h2 h
    omega
  | succ todo ih =>
    intro i out h1 h2 h
    by_cases hic : i < cover.length
    · by_cases hio : i < out.length
      · simp only [extractLSBLoop, List.getElem?_eq_getElem hic, if_pos hio]
        apply ih
        · omega
        · simp; omega
        · simp; omega
      · simp only [extractLSBLoop, List.getElem?_eq_getElem hic, if_neg hio]
    · have : cover[i]? = none := List.getElem?_eq_none (by omega)
      simp only [extractLSBLoop, this]

theorem extractLSBLoop_spec (cover : List Nat) :
    ∀ (todo i : Nat) (out : List Nat), i + todo ≤ cover.length → i + todo ≤ out.length →
      ∃ r, extractLSBLoop cover todo i out = some r ∧ r.length = out.length ∧
        ∀ j, r[j]? = if i ≤ j ∧ j < i + todo
          then some (((cover.getD j 0 % 16) * 16) % 256)
          else out[j]? := by
  intro todo
  induction todo with
  | zero =>
    intro i out _ _
    refine ⟨out, rfl, rfl, fun j => ?_⟩
    have : ¬ (i ≤ j ∧ j < i + 0) := by omega
    rw [if_neg this]
  | succ todo ih =>
    intro i out hc ho
    have hic : i < cover.length := by omega
    have hio : i < out.length := by omega
    obtain ⟨r, hr, hlen, hget⟩ := ih (i + 1)
      (out.set i (((cover[i] % 16) * 16) % 256)) (by omega) (by simp; omega)
    refine ⟨r, ?_, by simpa using hlen, fun j => ?_⟩
    · simp only [extractLSBLoop, List.getElem?_eq_getElem hic, if_pos hio]
      exact hr
    · rw [hget j]
      by_cases h1 : i + 1 ≤ j ∧ j < i + 1 + todo
      · have h2 : i ≤ j ∧ j < i + (todo + 1) := by omega
        have h3 : i ≠ j := by omega
        simp [h1, h2, List.getElem?_set, h3]
      · by_cases h4 : j = i
        · subst h4
          have h2 : j ≤ j ∧ j < j + (todo + 1) := by omega
          simp [h1, h2, List.getD_eq_getElem?_getD, List.getElem?_set, hic, hio]
        · have h2 : ¬ (i ≤ j ∧ j < i + (todo + 1)) := by omega
          have h3 : i ≠ j := by omega
          simp [h1, h2, List.getElem?_set, h3]

/-- After `embedLSB` with both buffers holding `n = width * height` samples or more, the
cover keeps its length, every index below `n` holds the embedded byte and the others are
unchanged. -/
theorem embedLSB_spec (cover secret : List Nat) (width height : Int) (n : Nat)
    (hn : pixelCount width height = some n)
    (hc : n ≤ cover.length) (hs : n ≤ secret.length) :
    ∃ r, embedLSB cover secret width height = some r ∧ r.length = cover.length ∧
      ∀ j, r[j]? = if j < n
        then some (((cover.getD j 0 / 16) * 16 + secret.getD j 0 / 16) % 256)
        else cover[j]? := by
  obtain ⟨r, hr, hlen, hget⟩ := embedLSBLoop_spec secret n 0 cover (by omega) (by omega)
  refine ⟨r, ?_, hlen, fun j => ?_⟩
  · simp only [embedLSB, hn]; exact hr
  · rw [hget j]; simp

/-- The counterpart of `embedLSB_spec` for `extractLSB`. -/
theorem extractLSB_spec (cover out : List Nat) (width height : Int) (n : Nat)
    (hn : pixelCount width height = some n)
    (hc : n ≤ cover.length) (ho : n ≤ out.length) :
    ∃ r, extractLSB cover out width height = some r ∧ r.length = out.length ∧
      ∀ j, r[j]? = if j < n
        then some (((cover.getD j 0 % 16) * 16) % 256)
        else out[j]? := by
  obtain ⟨r, hr, hlen, hget⟩ := extractLSBLoop_spec cover n 0 out (by omega) (by omega)
  refine ⟨r, ?_, hlen, fun j => ?_⟩
  · simp only [extractLSB, hn]; exact hr
  · rw [hget j]; simp

theorem getD_of_getElem? (l : List Nat) (i x : Nat) (h : l[i]? = some x) :
    l.getD i 0 = x := by
  simp [List.getD_eq_getElem?_getD, h]

theorem lt_length_of_getElem? (l : List Nat) (i x : Nat) (h : l[i]? = some x) :
    i < l.length := by
  by_contra hcon
  rw [List.getElem?_eq_none (by omega)] at h
  cases h

theorem byte_of_getElem? (l : List Nat) (hl : IsByteBuffer l) (i x : Nat)
    (h : l[i]? = some x) : x < 256 :=
  hl x (List.getElem?_mem h)

/-- C1: for cover and secret buffers of n = width*height 8-bit samples, embedLSB completes
and leaves at every index i < n the byte (cover[i] & 0xF0) | (secret[i] >> 4); the
arithmetic form (c / 16) * 16 + s / 16 of the code never exceeds 255 and equals the bitwise
form for every pair of bytes. -/
theorem embedLSB_bitwise (cover secret : List Nat) (width height : Int)
    (hrange : width * height ≤ INT_MAX)
    (hcover : (cover.length : Int) = width * height)
    (hsecret : secret.length = cover.length)
    (hcb : IsByteBuffer cover) (hsb : IsByteBuffer secret) :
    (∃ r, embedLSB cover secret width height = some r ∧ r.length = cover.length ∧
      ∀ (i c s : Nat), cover[i]? = some c → secret[i]? = some s →
        r[i]? = some ((c &&& 0xF0) ||| (s >>> 4))) ∧
    ∀ c s : Nat, c < 256 → s < 256 →
      (c / 16) * 16 + s / 16 ≤ 255 ∧
        (c / 16) * 16 + s / 16 = (c &&& 0xF0) ||| (s >>> 4) := by
  refine ⟨?_, embed_arith_eq_bitwise⟩
  obtain ⟨r, hr, hlen, hget⟩ := embedLSB_spec cover secret width height cover.length
    (pixelCount_of_length _ _ _ hrange hcover) (le_refl _) (by omega)
  refine ⟨r, hr, hlen, fun i c s hci hsi => ?_⟩
  have hi := lt_length_of_getElem? _ _ _ hci
  have hc := byte_of_getElem? _ hcb _ _ hci
  have hs := byte_of_getElem? _ hsb _ _ hsi
  rw [hget i, if_pos hi, getD_of_getElem? _ _ _ hci, getD_of_getElem? _ _ _ hsi]
  have h := embed_arith_eq_bitwise c s hc hs
  rw [← h.2, Nat.mod_eq_of_lt (by omega)]

/-- Witness of `embedLSB_bitwise` on a 2x2 raster. -/
theorem embedLSB_bitwise_witness :
    ((2 : Int) * 2 ≤ INT_MAX ∧ (([10, 20, 30, 40] : List Nat).length : Int) = 2 * 2
      ∧ ([255, 0, 128, 64] : List Nat).length = ([10, 20, 30, 40] : List Nat).length
      ∧ IsByteBuffer [10, 20, 30, 40] ∧ IsByteBuffer [255, 0, 128, 64]) ∧
    ((∃ r, embedLSB [10, 20, 30, 40] [255, 0, 128, 64] 2 2 = some r
        ∧ r.length = ([10, 20, 30, 40] : List Nat).length ∧
      ∀ (i c s : Nat), ([10, 20, 30, 40] : List Nat)[i]? = some c →
        ([255, 0, 128, 64] : List Nat)[i]? = some s →
        r[i]? = some ((c &&& 0xF0) ||| (s >>> 4))) ∧
    ∀ c s : Nat, c < 256 → s < 256 →
      (c / 16) * 16 + s / 16 ≤ 255 ∧
        (c / 16) * 16 + s / 16 = (c &&& 0xF0) ||| (s >>> 4)) :=
  ⟨⟨by decide, by decide, by decide, by decide, by decide⟩,
    embedLSB_bitwise [10, 20, 30, 40] [255, 0, 128, 64] 2 2
      (by decide) (by decide) (by decide) (by decide) (by decide)⟩

/-- C2: for a stego buffer and an output buffer of n = width*height samples, extractLSB
has no failure case, leaves exactly n samples in the output, and at every index i < n the
output is (stego[i] & 0x0F) << 4 as an 8-bit value, equal to (stego[i] % 16) * 16. -/
theorem extractLSB_bitwise (stego output : List Nat) (width height : Int)
    (hrange : width * height ≤ INT_MAX)
    (hstego : (stego.length : Int) = width * height)
    (hout : output.length = stego.length) :
    ∃ r, extractLSB stego output width height = some r ∧ r.length = stego.length ∧
      ∀ (i c : Nat), stego[i]? = some c →
        r[i]? = some (((c &&& 0x0F) <<< 4) % 256) ∧
          ((c &&& 0x0F) <<< 4) % 256 = (c % 16) * 16 := by
  obtain ⟨r, hr, hlen, hget⟩ := extractLSB_spec stego output width height stego.length
    (pixelCount_of_length _ _ _ hrange hstego) (le_refl _) (by omega)
  refine ⟨r, hr, by omega, fun i c hci => ?_⟩
  have hi := lt_length_of_getElem? _ _ _ hci
  have hbit : ((c &&& 0x0F) <<< 4) % 256 = (c % 16) * 16 := by
    rw [and_0F_eq, shiftLeft_four]; omega
  refine ⟨?_, hbit⟩
  rw [hget i, if_pos hi, getD_of_getElem? _ _ _ hci, hbit]
  congr 1; omega

/-- Witness of `extractLSB_bitwise` on a 2x2 raster. -/
theorem extractLSB_bitwise_witness :
    ((2 : Int) * 2 ≤ INT_MAX ∧ (([15, 16, 24, 36] : List Nat).length : Int) = 2 * 2
      ∧ ([0, 0, 0, 0] : List Nat).length = ([15, 16, 24, 36] : List Nat).length) ∧
    ∃ r, extractLSB [15, 16, 24, 36] [0, 0, 0, 0] 2 2 = some r
        ∧ r.length = ([15, 16, 24, 36] : List Nat).length ∧
      ∀ (i c : Nat), ([15, 16, 24, 36] : List Nat)[i]? = some c →
        r[i]? = some (((c &&& 0x0F) <<< 4) % 256) ∧
          ((c &&& 0x0F) <<< 4) % 256 = (c % 16) * 16 :=
  ⟨⟨by decide, by decide, by decide⟩,
    extractLSB_bitwise [15, 16, 24, 36] [0, 0, 0, 0] 2 2 (by decide) (by decide) (by decide)⟩

/-- C3: for cover, secret and output buffers of n = width*height samples (secret samples
8-bit), extractLSB applied to the result of embedLSB gives at every index i a sample e
with e & 0xF0 = secret[i] & 0xF0, e & 0x0F = 0 and e = (secret[i] / 16) * 16, whatever
the cover was. -/
theorem extract_embed_high_nibble (cover secret output : List Nat) (width height : Int)
    (hrange : width * height ≤ INT_MAX)
    (hcover : (cover.length : Int) = width * height)
    (hsecret : secret.length = cover.length)
    (hout : output.length = cover.length)
    (hsb : IsByteBuffer secret) :
    ∃ stego r, embedLSB cover secret width height = some stego ∧
      extractLSB stego output width height = some r ∧ r.length = secret.length ∧
      ∀ (i s : Nat), secret[i]? = some s →
        ∃ e, r[i]? = some e ∧ e &&& 0xF0 = s &&& 0xF0 ∧ e &&& 0x0F = 0 ∧
          e = (s / 16) * 16 := by
  have hn := pixelCount_of_length _ _ _ hrange hcover
  obtain ⟨stego, hst, hslen, hsget⟩ := embedLSB_spec cover secret width height cover.length
    hn (le_refl _) (by omega)
  obtain ⟨r, hr, hlen, hget⟩ := extractLSB_spec stego output width height cover.length
    hn (by omega) (by omega)
  refine ⟨stego, r, hst, hr, by omega, fun i s hsi => ?_⟩
  have hi := lt_length_of_getElem? _ _ _ hsi
  have hs := byte_of_getElem? _ hsb _ _ hsi
  have hic : i < cover.length := by omega
  have hstego : stego.getD i 0 = ((cover.getD i 0 / 16) * 16 + s / 16) % 256 := by
    have := hsget i
    rw [if_pos hic, getD_of_getElem? _ _ _ hsi] at this
    exact getD_of_getElem? _ _ _ this
  have he : (((stego.getD i 0) % 16) * 16) % 256 = (s / 16) * 16 := by
    rw [hstego]; omega
  refine ⟨(s / 16) * 16, ?_, ?_, ?_, rfl⟩
  · rw [hget i, if_pos hic, he]
  · rw [and_F0_eq _ (by omega), and_F0_eq s hs]; omega
  · rw [and_0F_eq]; omega

/-- Witness of `extract_embed_high_nibble` on a 2x2 raster. -/
theorem extract_embed_high_nibble_witness :
    ((2 : Int) * 2 ≤ INT_MAX ∧ (([10, 20, 30, 40] : List Nat).length : Int) = 2 * 2
      ∧ ([255, 0, 128, 64] : List Nat).length = ([10, 20, 30, 40] : List Nat).length
      ∧ ([0, 0, 0, 0] : List Nat).length = ([10, 20, 30, 40] : List Nat).length
      ∧ IsByteBuffer [255, 0, 128, 64]) ∧
    ∃ stego r, embedLSB [10, 20, 30, 40] [255, 0, 128, 64] 2 2 = some stego ∧
      extractLSB stego [0, 0, 0, 0] 2 2 = some r
      ∧ r.length = ([255, 0, 128, 64] : List Nat).length ∧
      ∀ (i s : Nat), ([255, 0, 128, 64] : List Nat)[i]? = some s →
        ∃ e, r[i]? = some e ∧ e &&& 0xF0 = s &&& 0xF0 ∧ e &&& 0x0F = 0 ∧
          e = (s / 16) * 16 :=
  ⟨⟨by decide, by decide, by decide, by decide, by decide⟩,
    extract_embed_high_nibble [10, 20, 30, 40] [255, 0, 128, 64] [0, 0, 0, 0] 2 2
      (by decide) (by decide) (by decide) (by decide) (by decide)⟩

/-- C4: for cover and secret buffers of n = width*height 8-bit samples, the sample r that
embedLSB leaves at an index i < n has the high nibble of the original cover sample:
r & 0xF0 = cover[i] & 0xF0. -/
theorem embedLSB_keeps_high_nibble (cover secret : List Nat) (width height : Int)
    (hrange : width * height ≤ INT_MAX)
    (hcover : (cover.length : Int) = width * height)
    (hsecret : secret.length = cover.length)
    (hcb : IsByteBuffer cover) (hsb : IsByteBuffer secret) :
    ∃ stego, embedLSB cover secret width height = some stego ∧
      stego.length = cover.length ∧
      ∀ (i c : Nat), cover[i]? = some c →
        ∃ r, stego[i]? = some r ∧ r &&& 0xF0 = c &&& 0xF0 := by
  obtain ⟨stego, hst, hlen, hget⟩ := embedLSB_spec cover secret width height cover.length
    (pixelCount_of_length _ _ _ hrange hcover) (le_refl _) (by omega)
  refine ⟨stego, hst, hlen, fun i c hci => ?_⟩
  have hi := lt_length_of_getElem? _ _ _ hci
  have hc := byte_of_getElem? _ hcb _ _ hci
  have his : i < secret.length := by omega
  have hs : secret.getD i 0 < 256 := by
    rw [List.getD_eq_getElem _ _ his]
    exact hsb _ (List.getElem_mem his)
  refine ⟨((c / 16) * 16 + secret.getD i 0 / 16) % 256, ?_, ?_⟩
  · rw [hget i, if_pos hi, getD_of_getElem? _ _ _ hci]
  · rw [and_F0_eq _ (Nat.mod_lt _ (by decide)), and_F0_eq c hc]; omega

/-- Witness of `embedLSB_keeps_high_nibble` on a 2x2 raster. -/
theorem embedLSB_keeps_high_nibble_witness :
    ((2 : Int) * 2 ≤ INT_MAX ∧ (([10, 20, 30, 40] : List Nat).length : Int) = 2 * 2
      ∧ ([255, 0, 128, 64] : List Nat).length = ([10, 20, 30, 40] : List Nat).length
      ∧ IsByteBuffer [10, 20, 30, 40] ∧ IsByteBuffer [255, 0, 128, 64]) ∧
    ∃ stego, embedLSB [10, 20, 30, 40] [255, 0, 128, 64] 2 2 = some stego ∧
      stego.length = ([10, 20, 30, 40] : List Nat).length ∧
      ∀ (i c : Nat), ([10, 20, 30, 40] : List Nat)[i]? = some c →
        ∃ r, stego[i]? = some r ∧ r &&& 0xF0 = c &&& 0xF0 :=
  ⟨⟨by decide, by decide, by decide, by decide, by decide⟩,
    embedLSB_keeps_high_nibble [10, 20, 30, 40] [255, 0, 128, 64] 2 2
      (by decide) (by decide) (by decide) (by decide) (by decide)⟩

/-- C6, counterexample: with a cover of 3 samples and a secret of 2 samples (lengths differ)
and width*height = 2, embedLSB completes normally and reports nothing, and so does
extractLSB with a 3-sample input and a 2-sample output; with a 1-sample cover the call
reads index 1 past the end of the buffer (undefined, `none`) instead of failing cleanly. -/
theorem length_mismatch_unchecked :
    ([16, 32, 48] : List Nat).length ≠ ([255, 255] : List Nat).length ∧
      embedLSB [16, 32, 48] [255, 255] 2 1 = some [31, 47, 48] ∧
      extractLSB [31, 47, 48] [0, 0] 2 1 = some [240, 240] ∧
      embedLSB [16] [255, 255] 2 1 = none ∧
      extractLSB [31, 47] [0] 2 1 = none := by
  decide

/-- C6, amended: embedLSB and extractLSB check no length and report no error.  With
n = width*height, the call completes normally exactly when both buffers hold at least n
samples, whether or not their lengths are equal; the written buffer then keeps its length
and every sample at an index from n on; with a shorter buffer the call accesses it out of
bounds (undefined behaviour, `none`). -/
theorem no_length_check (a b : List Nat) (width height : Int) (n : Nat)
    (hn : pixelCount width height = some n) :
    (embedLSB a b width height = none ↔ (a.length < n ∨ b.length < n)) ∧
    (extractLSB a b width height = none ↔ (a.length < n ∨ b.length < n)) ∧
    (n ≤ a.length → n ≤ b.length →
      (∃ r, embedLSB a b width height = some r ∧ r.length = a.length ∧
        ∀ j, n ≤ j → r[j]? = a[j]?) ∧
      (∃ r, extractLSB a b width height = some r ∧ r.length = b.length ∧
        ∀ j, n ≤ j → r[j]? = b[j]?)) := by
  have hboth : n ≤ a.length → n ≤ b.length →
      (∃ r, embedLSB a b width height = some r ∧ r.length = a.length ∧
        ∀ j, n ≤ j → r[j]? = a[j]?) ∧
      (∃ r, extractLSB a b width height = some r ∧ r.length = b.length ∧
        ∀ j, n ≤ j → r[j]? = b[j]?) := by
    intro ha hb
    obtain ⟨r, hr, hlen, hget⟩ := embedLSB_spec a b width height n hn ha hb
    obtain ⟨r2, hr2, hlen2, hget2⟩ := extractLSB_spec a b width height n hn ha hb
    refine ⟨⟨r, hr, hlen, fun j hj => ?_⟩, ⟨r2, hr2, hlen2, fun j hj => ?_⟩⟩
    · rw [hget j, if_neg (by omega)]
    · rw [hget2 j, if_neg (by omega)]
  refine ⟨⟨fun h => ?_, fun h => ?_⟩, ⟨fun h => ?_, fun h => ?_⟩, hboth⟩
  · by_contra hcon
    obtain ⟨⟨r, hr, _⟩, _⟩ := hboth (by omega) (by omega)
    rw [h] at hr; cases hr
  · simp only [embedLSB, hn]
    exact embedLSBLoop_none b n 0 a (Nat.zero_le _) (Nat.zero_le _) (by omega)
  · by_contra hcon
    obtain ⟨_, ⟨r, hr, _⟩⟩ := hboth (by omega) (by omega)
    rw [h] at hr; cases hr
  · simp only [extractLSB, hn]
    exact extractLSBLoop_none a n 0 b (Nat.zero_le _) (Nat.zero_le _) (by omega)

/-- Witness of `no_length_check`: a 3-sample and a 2-sample buffer with width*height = 2. -/
theorem no_length_check_witness :
    pixelCount 2 1 = some 2 ∧
    ((embedLSB [16, 32, 48] [255, 255] 2 1 = none ↔
      (([16, 32, 48] : List Nat).length < 2 ∨ ([255, 255] : List Nat).length < 2)) ∧
    (extractLSB [16, 32, 48] [255, 255] 2 1 = none ↔
      (([16, 32, 48] : List Nat).length < 2 ∨ ([255, 255] : List Nat).length < 2)) ∧
    (2 ≤ ([16, 32, 48] : List Nat).length → 2 ≤ ([255, 255] : List Nat).length →
      (∃ r, embedLSB [16, 32, 48] [255, 255] 2 1 = some r
        ∧ r.length = ([16, 32, 48] : List Nat).length ∧
        ∀ j, 2 ≤ j → r[j]? = ([16, 32, 48] : List Nat)[j]?) ∧
      (∃ r, extractLSB [16, 32, 48] [255, 255] 2 1 = some r
        ∧ r.length = ([255, 255] : List Nat).length ∧
        ∀ j, 2 ≤ j → r[j]? = ([255, 255] : List Nat)[j]?))) :=
  ⟨by decide, no_length_check [16, 32, 48] [255, 255] 2 1 2 (by decide)⟩

/-! ## Decimal output -/

theorem decimalValue_append_digit (ds : List Nat) (d : Nat) :
    decimalValue (ds ++ [d]) = decimalValue ds * 10 + (d - 48) := by
  simp [decimalValue, List.foldl_append]

theorem printNatFuel_isDecimalOf :
    ∀ (fuel n : Nat), n < fuel → IsDecimalOf (printNatFuel fuel n) n := by
  intro fuel
  induction fuel with
  | zero => intro n h; omega
  | succ fuel ih =>
    intro n hn
    by_cases h10 : n < 10
    · simp only [printNatFuel, if_pos h10]
      refine ⟨by simp, ?_, ?_, ?_⟩
      · intro c hc
        simp only [List.mem_singleton] at hc
        omega
      · intro h
        simp only [List.head?_cons, Option.some.injEq] at h
        have : n = 0 := by omega
        rw [this]
      · simp [decimalValue]
    · simp only [printNatFuel, if_neg h10]
      obtain ⟨hne, hdig, hlead, hval⟩ := ih (n / 10) (by omega)
      refine ⟨by simp, ?_, ?_, ?_⟩
      · intro c hc
        rcases List.mem_append.mp hc with h | h
        · exact hdig c h
        · simp only [List.mem_singleton] at h
          omega
      · intro h
        have hhead : (printNatFuel fuel (n / 10)).head? = some 48 := by
          cases hp : printNatFuel fuel (n / 10) with
          | nil => exact absurd hp hne
          | cons a l => rw [hp] at h; simpa using h
        have h48 := hlead hhead
        rw [h48] at hval
        simp [decimalValue] at hval
        omega
      · rw [decimalValue_append_digit, hval]
        omega

theorem printNat_isDecimalOf (n : Nat) : IsDecimalOf (printNat n) n :=
  printNatFuel_isDecimalOf (n + 1) n (Nat.lt_succ_self n)

theorem printInt_natCast (p : Nat) : printInt (p : Int) = printNat p := by
  unfold printInt
  rw [if_neg (by omega)]
  simp

theorem printInt_of_nonneg (v : Int) (hv : 0 ≤ v) : printInt v = printNat v.toNat := by
  unfold printInt
  rw [if_neg (by omega)]

/-! ## writePGMText -/

theorem writePixelsText_spec (pixels : List Nat) :
    ∀ (todo i : Nat) (out : List Nat), i + todo ≤ pixels.length →
      writePixelsText pixels todo i out
        = some (out ++ (((pixels.drop i).take todo).map
            (fun p => printNat p ++ [10])).flatten) := by
  intro todo
  induction todo with
  | zero => intro i out _; simp [writePixelsText]
  | succ todo ih =>
    intro i out hlen
    have hi : i < pixels.length := by omega
    simp only [writePixelsText, List.getElem?_eq_getElem hi]
    rw [ih (i + 1) _ (by omega), List.drop_eq_getElem_cons hi, printInt_natCast]
    simp only [List.take_succ_cons, List.map_cons, List.flatten_cons, List.append_assoc]

theorem writePixelsText_none (pixels : List Nat) :
    ∀ (todo i : Nat) (out : List Nat), pixels.length < i + todo → i ≤ pixels.length →
      writePixelsText pixels todo i out = none := by
  intro todo
  induction todo with
  | zero => intro i out h1 h2; omega
  | succ todo ih =>
    intro i out h1 h2
    by_cases hi : i < pixels.length
    · simp only [writePixelsText, List.getElem?_eq_getElem hi]
      exact ih (i + 1) _ (by omega) (by omega)
    · have : pixels[i]? = none := List.getElem?_eq_none (by omega)
      simp only [writePixelsText, this]

/-- The bytes written by writePGMText for a raster of `width * height` samples: the header,
then one printed sample and a newline per sample. -/
theorem writePGMText_output (pixels : List Nat) (width height : Int)
    (hrange : width * height ≤ INT_MAX)
    (hlen : (pixels.length : Int) = width * height) :
    writePGMText true pixels width height
      = some (0, bytes "P2\n# Created by stego_lsb.c\n" ++ printInt width ++ [32]
          ++ printInt height ++ bytes "\n255\n"
          ++ ((pixels.map printNat).map (fun l => l ++ [10])).flatten) := by
  simp only [writePGMText, pixelCount_of_length _ _ _ hrange hlen]
  rw [if_neg (by simp), writePixelsText_spec pixels pixels.length 0 _ (by omega)]
  simp [List.map_map, Function.comp_def]

/-- C10: for a raster of n = width*height samples (n >= 0), writePGMText returns 0 and
writes exactly the header "P2\n# Created by stego_lsb.c\n<width> <height>\n255\n" followed
by exactly n lines; line i is the decimal representation of sample i (digits only, no
leading zero) followed by a newline, in buffer order.  For non-negative width and height
the header fields are their decimal representations. -/
theorem writePGMText_format (pixels : List Nat) (width height : Int)
    (hrange : width * height ≤ INT_MAX)
    (hlen : (pixels.length : Int) = width * height) :
    ∃ lines : List (List Nat),
      writePGMText true pixels width height
        = some (0, bytes "P2\n# Created by stego_lsb.c\n" ++ printInt width ++ [32]
            ++ printInt height ++ bytes "\n255\n"
            ++ (lines.map (fun l => l ++ [10])).flatten) ∧
      lines.length = pixels.length ∧
      (∀ (i p : Nat), pixels[i]? = some p → ∃ l, lines[i]? = some l ∧ IsDecimalOf l p) ∧
      (0 ≤ width → IsDecimalOf (printInt width) width.toNat) ∧
      (0 ≤ height → IsDecimalOf (printInt height) height.toNat) := by
  refine ⟨pixels.map printNat, writePGMText_output pixels width height hrange hlen,
    by simp, fun i p hp => ?_, fun hw => ?_, fun hh => ?_⟩
  · exact ⟨printNat p, by simp [hp], printNat_isDecimalOf p⟩
  · rw [printInt_of_nonneg _ hw]; exact printNat_isDecimalOf _
  · rw [printInt_of_nonneg _ hh]; exact printNat_isDecimalOf _

/-- Witness of `writePGMText_format` on a 2x2 raster. -/
theorem writePGMText_format_witness :
    ((2 : Int) * 2 ≤ INT_MAX ∧ (([0, 255, 17, 9] : List Nat).length : Int) = 2 * 2) ∧
    ∃ lines : List (List Nat),
      writePGMText true [0, 255, 17, 9] 2 2
        = some (0, bytes "P2\n# Created by stego_lsb.c\n" ++ printInt 2 ++ [32]
            ++ printInt 2 ++ bytes "\n255\n"
            ++ (lines.map (fun l => l ++ [10])).flatten) ∧
      lines.length = ([0, 255, 17, 9] : List Nat).length ∧
      (∀ (i p : Nat), ([0, 255, 17, 9] : List Nat)[i]? = some p →
        ∃ l, lines[i]? = some l ∧ IsDecimalOf l p) ∧
      ((0 : Int) ≤ 2 → IsDecimalOf (printInt 2) (2 : Int).toNat) ∧
      ((0 : Int) ≤ 2 → IsDecimalOf (printInt 2) (2 : Int).toNat) :=
  ⟨⟨by decide, by decide⟩, writePGMText_format [0, 255, 17, 9] 2 2 (by decide) (by decide)⟩

/-! ## Decimal input -/

theorem scanDigits_append (rest : List Nat)
    (hrest : ∀ c, rest.head? = some c → isdigit c = false) :
    ∀ (ds : List Nat) (acc : Nat), (∀ c ∈ ds, 48 ≤ c ∧ c ≤ 57) →
      scanDigits (ds ++ rest) acc = (ds.foldl (fun a c => a * 10 + (c - 48)) acc, rest) := by
  intro ds
  induction ds with
  | nil =>
    intro acc _
    cases rest with
    | nil => rfl
    | cons c r =>
      have := hrest c rfl
      simp [scanDigits, this]
  | cons d ds ih =>
    intro acc hd
    have hdd : isdigit d = true := by
      have := hd d (List.mem_cons_self _ _)
      simp [isdigit, this.1, this.2]
    simp only [List.cons_append, scanDigits, hdd, if_true, List.foldl_cons]
    exact ih _ (fun c hc => hd c (List.mem_cons_of_mem _ hc))

/-- The input item scanned from a printed non-negative number, when the next character is
not a digit. -/
theorem scanItem_printNat (n : Nat) (rest : List Nat)
    (hrest : ∀ c, rest.head? = some c → isdigit c = false) :
    scanItem (printNat n ++ rest) = some (false, n, rest) := by
  obtain ⟨hne, hdig, _, hval⟩ := printNat_isDecimalOf n
  have hscan := scanDigits_append rest hrest (printNat n) 0 hdig
  cases hp : printNat n with
  | nil => exact absurd hp hne
  | cons d ds =>
    rw [hp] at hscan hdig hval
    have hd := hdig d (List.mem_cons_self _ _)
    have hsp : isspace d = false := by
      simp [isspace]; omega
    have hdd : isdigit d = true := by simp [isdigit, hd.1, hd.2]
    have h45 : d ≠ 45 := by omega
    have h43 : d ≠ 43 := by omega
    have hv : List.foldl (fun a c => a * 10 + (c - 48)) 0 (d :: ds) = n := hval
    rw [hv] at hscan
    simp only [List.cons_append] at hscan ⊢
    simp only [scanItem, skipSpaces, hsp, Bool.false_eq_true, if_false, h45, h43, hdd, if_true,
      hscan]

theorem scanItem_skip_space (c : Nat) (s : List Nat) (hc : isspace c = true) :
    scanItem (c :: s) = scanItem s := by
  simp only [scanItem, skipSpaces, hc, if_true]

/-- Reading back a printed non-negative `int`: `%d` applied to the output of `%d`, when
the next character is not a digit. -/
theorem scanInt_printNat (n : Nat) (hn : (n : Int) ≤ INT_MAX) (rest : List Nat)
    (hrest : ∀ c, rest.head? = some c → isdigit c = false) :
    scanInt (printNat n ++ rest) = some ((n : Int), rest) := by
  have hconv : longToInt (strtol false n) = (n : Int) := by
    unfold INT_MAX at hn
    simp only [longToInt, strtol, LONG_MAX, Bool.false_eq_true, if_false]
    rw [if_pos (by omega)]
    omega
  simp only [scanInt, scanItem_printNat n rest hrest, hconv]

theorem scanInt_skip_space (c : Nat) (s : List Nat) (hc : isspace c = true) :
    scanInt (c :: s) = scanInt s := by
  simp only [scanInt, scanItem_skip_space c s hc]

/-- The byte `%hhu` stores for a printed non-negative number: the number modulo 256 when
it fits an `unsigned long`, and 255 otherwise. -/
theorem scanUChar_printNat (n : Nat) (rest : List Nat)
    (hrest : ∀ c, rest.head? = some c → isdigit c = false) :
    scanUChar (printNat n ++ rest) = some (min n ULONG_MAX % 256, rest) := by
  have hconv : strtoul false n = min n ULONG_MAX := by
    simp only [strtoul, Bool.false_eq_true, if_false]
    by_cases h : ULONG_MAX < n
    · rw [if_pos h]; omega
    · rw [if_neg h]; omega
  simp only [scanUChar, scanItem_printNat n rest hrest, hconv]

theorem scanUChar_skip_space (c : Nat) (s : List Nat) (hc : isspace c = true) :
    scanUChar (c :: s) = scanUChar s := by
  simp only [scanUChar, scanItem_skip_space c s hc]

/-! ## Reading back the output of writePGMText -/

/-- When the header phase of readPGMText gets as far as the maximum value and that value is
not 255, the call returns 1 and leaves the buffer alone, whatever `w` and `h` hold. -/
theorem readPGMText_maxVal_reject (f0 b0 f1 b1 f2 f3 : List Nat) (maxVal w0 h0 : Int)
    (pixels : List Nat) (width height : Int)
    (h1 : fgets 16 f0 = some (b0, f1)) (hP : b0.getD 0 0 = 80) (h2 : b0.getD 1 0 = 50)
    (h3 : skipComments (f1.length + 1) f1 = some (b1, f2))
    (h4 : scanInt f2 = some (maxVal, f3)) (h5 : maxVal ≠ 255) :
    readPGMText (some f0) w0 h0 pixels width height = some (1, pixels) := by
  simp only [readPGMText, h1, hP, h2, h3, h4, h5, ne_eq, not_true_eq_false, or_self,
    if_false, not_false_eq_true, or_true, if_true]

theorem isdigit_space (l : List Nat) :
    ∀ c, ([32] ++ l).head? = some c → isdigit c = false := by
  intro c h
  simp only [List.singleton_append, List.head?_cons, Option.some.injEq] at h
  subst h
  rfl

/-- C5, evaluation at the failing input: for the 1x1 raster [0], writePGMText writes
"P2\n# Created by stego_lsb.c\n1 1\n255\n0\n" and readPGMText on exactly these bytes with
expected dimensions 1x1 returns 1, for every indeterminate initial value of `w`, `h` and
every content of the sample buffer: the 25-byte comment line does not fit the 16-byte line
buffer, its tail "ego_lsb.c" is taken for the dimensions line and the width for the maximum
value. -/
theorem roundtrip_fails_1x1 (w0 h0 : Int) (buf : List Nat) :
    writePGMText true [0] 1 1
        = some (0, bytes "P2\n# Created by stego_lsb.c\n1 1\n255\n0\n") ∧
      readPGMText (some (bytes "P2\n# Created by stego_lsb.c\n1 1\n255\n0\n")) w0 h0 buf 1 1
        = some (1, buf) := by
  refine ⟨by decide, ?_⟩
  exact readPGMText_maxVal_reject _ (bytes "P2\n" ++ [0])
    (bytes "# Created by stego_lsb.c\n1 1\n255\n0\n") (bytes "ego_lsb.c\n" ++ [0])
    (bytes "1 1\n255\n0\n") (bytes " 1\n255\n0\n") 1 w0 h0 buf 1 1
    (by decide) (by decide) (by decide) (by decide) (by decide) (by decide)

/-- Reading back what writePGMText wrote fails for every raster whose width is a positive `int` and
different from 255: the maximum value is read from the width field. -/
theorem roundtrip_fails_of_width_ne_255 (pixels : List Nat) (width height : Int)
    (hw : 0 < width) (hwmax : width ≤ INT_MAX) (hne : width ≠ 255)
    (hrange : width * height ≤ INT_MAX)
    (hlen : (pixels.length : Int) = width * height)
    (w0 h0 : Int) (buf : List Nat) :
    ∃ s, writePGMText true pixels width height = some (0, s) ∧
      readPGMText (some s) w0 h0 buf width height = some (1, buf) := by
  refine ⟨_, writePGMText_output pixels width height hrange hlen, ?_⟩
  generalize pixels.map printNat = lines
  have hpw : printInt width = printNat width.toNat := printInt_of_nonneg _ (by omega)
  have hcast : ((width.toNat : Nat) : Int) = width := by omega
  have hscan := scanInt_printNat width.toNat (by rw [hcast]; exact hwmax)
    ([32] ++ (printInt height ++ bytes "\n255\n"
      ++ (lines.map (fun l => l ++ [10])).flatten)) (isdigit_space _)
  rw [hcast] at hscan
  refine readPGMText_maxVal_reject _ (bytes "P2\n" ++ [0])
    (bytes "# Created by stego_lsb.c\n" ++ (printNat width.toNat ++ ([32]
      ++ (printInt height ++ bytes "\n255\n" ++ (lines.map (fun l => l ++ [10])).flatten))))
    (bytes "ego_lsb.c\n" ++ [0]) _ _ width w0 h0 buf width height ?_ (by decide) (by decide)
    ?_ hscan hne
  · rw [hpw]
    simp only [List.append_assoc]
    rfl
  · rfl

/-! ## The fuel of the comment loop is sufficient -/

theorem fgetsChars_rest_length :
    ∀ (k : Nat) (c : Nat) (file : List Nat),
      (fgetsChars (k + 1) (c :: file)).2.length ≤ file.length := by
  intro k
  induction k with
  | zero =>
    intro c file
    by_cases h : c = 10 <;> simp [fgetsChars, h]
  | succ k ih =>
    intro c file
    by_cases h : c = 10
    · simp [fgetsChars, h]
    · cases file with
      | nil => simp [fgetsChars, h]
      | cons d file1 =>
        have := ih d file1
        simp only [fgetsChars, h, if_false, List.length_cons] at this ⊢
        omega

theorem fgets_consumes (file buffer file1 : List Nat)
    (h : fgets 16 file = some (buffer, file1)) : file1.length < file.length := by
  cases file with
  | nil => simp [fgets] at h
  | cons c rest =>
    simp only [fgets, Option.some.injEq, Prod.mk.injEq] at h
    rw [← h.2]
    have hlen : (fgetsChars (16 - 1) (c :: rest)).2.length ≤ rest.length :=
      fgetsChars_rest_length 14 c rest
    simp only [List.length_cons]
    omega

/-- The result of the comment loop does not depend on the fuel once the fuel exceeds the
length of the stream: the loop of the C code terminates on every stream. -/
theorem skipComments_fuel :
    ∀ (fuel1 fuel2 : Nat) (file : List Nat), file.length < fuel1 → file.length < fuel2 →
      skipComments fuel1 file = skipComments fuel2 file := by
  intro fuel1
  induction fuel1 with
  | zero => intro fuel2 file h; omega
  | succ fuel1 ih =>
    intro fuel2 file h1 h2
    cases fuel2 with
    | zero => omega
    | succ fuel2 =>
      cases hf : fgets 16 file with
      | none => simp only [skipComments, hf]
      | some bf =>
        obtain ⟨buffer, file1⟩ := bf
        have hlt := fgets_consumes file buffer file1 hf
        simp only [skipComments, hf]
        by_cases hc : buffer.getD 0 0 = 35
        · rw [if_pos hc, if_pos hc]
          exact ih fuel2 file1 (by omega) (by omega)
        · rw [if_neg hc, if_neg hc]

/-! ## Header checks that hold for every stream -/

/-- A file that cannot be opened is rejected and the buffer is left alone. -/
theorem readPGMText_open_failure (w0 h0 : Int) (pixels : List Nat) (width height : Int) :
    readPGMText none w0 h0 pixels width height = some (1, pixels) := rfl

/-- A stream whose first two bytes are not `P2` is rejected, whatever follows. -/
theorem readPGMText_bad_tag (f0 : List Nat) (w0 h0 : Int) (pixels : List Nat)
    (width height : Int) (htag : f0.take 2 ≠ [80, 50]) :
    readPGMText (some f0) w0 h0 pixels width height = some (1, pixels) := by
  cases f0 with
  | nil => rfl
  | cons c0 rest =>
    by_cases h10 : c0 = 10
    · subst h10
      simp [readPGMText, fgets, fgetsChars]
    · by_cases h80 : c0 = 80
      · subst h80
        cases rest with
        | nil => simp [readPGMText, fgets, fgetsChars]
        | cons c1 rest1 =>
          have hc1 : c1 ≠ 50 := by
            intro h; subst h; exact htag rfl
          by_cases h110 : c1 = 10
          · subst h110
            simp [readPGMText, fgets, fgetsChars]
          · simp [readPGMText, fgets, fgetsChars, h110, hc1]
      · simp [readPGMText, fgets, fgetsChars, h10, h80]

/-! ## readPGMText -/

theorem scanUChar_lt (file file1 : List Nat) (b : Nat)
    (h : scanUChar file = some (b, file1)) : b < 256 := by
  unfold scanUChar at h
  split at h
  · cases h
  · simp only [Option.some.injEq, Prod.mk.injEq] at h
    rw [← h.1]
    exact Nat.mod_lt _ (by decide)

theorem sampleTokens_length_le : ∀ (n : Nat) (file : List Nat),
    (sampleTokens n file).length ≤ n := by
  intro n
  induction n with
  | zero => intro file; simp [sampleTokens]
  | succ n ih =>
    intro file
    cases h : scanUChar file with
    | none => simp [sampleTokens, h]
    | some bf =>
      obtain ⟨b, file1⟩ := bf
      have := ih file1
      simp only [sampleTokens, h, List.length_cons]
      omega

theorem sampleTokens_bytes : ∀ (n : Nat) (file : List Nat),
    IsByteBuffer (sampleTokens n file) := by
  intro n
  induction n with
  | zero => intro file x hx; simp [sampleTokens] at hx
  | succ n ih =>
    intro file x hx
    cases h : scanUChar file with
    | none => simp [sampleTokens, h] at hx
    | some bf =>
      obtain ⟨b, file1⟩ := bf
      simp only [sampleTokens, h, List.mem_cons] at hx
      rcases hx with hx | hx
      · rw [hx]; exact scanUChar_lt _ _ _ h
      · exact ih file1 x hx

theorem set_length_append (pre mid : List Nat) (m b : Nat) :
    (pre ++ m :: mid).set pre.length b = pre ++ b :: mid := by
  induction pre with
  | nil => rfl
  | cons a pre ih => simp only [List.cons_append, List.length_cons, List.set_cons_succ, ih]

/-- The sample loop stores the sample tokens of the stream, in order, from index
`pre.length` on, keeps everything else, and returns 0 exactly when `todo` tokens were
there. -/
theorem readPixels_sampleTokens :
    ∀ (todo : Nat) (file pre mid : List Nat), todo ≤ mid.length →
      readPixels todo pre.length file (pre ++ mid)
        = some (if (sampleTokens todo file).length = todo then 0 else 1,
            pre ++ (sampleTokens todo file
              ++ mid.drop (sampleTokens todo file).length)) := by
  intro todo
  induction todo with
  | zero =>
    intro file pre mid _
    simp [readPixels, sampleTokens]
  | succ todo ih =>
    intro file pre mid hlen
    cases hscan : scanUChar file with
    | none =>
      simp [readPixels, sampleTokens, hscan]
    | some bf =>
      obtain ⟨b, file1⟩ := bf
      cases mid with
      | nil => simp at hlen
      | cons m mid1 =>
        have hi : pre.length < (pre ++ m :: mid1).length := by simp
        simp only [readPixels, hscan, if_pos hi, sampleTokens, set_length_append]
        have h := ih file1 (pre ++ [b]) mid1 (by simpa using hlen)
        simp only [List.length_append, List.length_singleton, List.append_assoc,
          List.singleton_append] at h
        rw [h]
        simp only [List.length_cons, List.drop_succ_cons, List.cons_append,
          Nat.add_right_cancel_iff]

/-- The call is the header phase followed by the sample loop. -/
theorem readPGMText_eq_header (file : Option (List Nat)) (w0 h0 : Int) (pixels : List Nat)
    (width height : Int) :
    readPGMText file w0 h0 pixels width height
      = match readPGMHeader file w0 h0 width height with
        | none => some (1, pixels)
        | some f3 =>
          match pixelCount width height with
          | none => none
          | some n => readPixels n 0 f3 pixels := by
  unfold readPGMText readPGMHeader
  split
  · rfl
  · split
    · rfl
    · split
      · rfl
      · split
        · rfl
        · split
          · rfl
          · split
            · rfl
            · rfl

/-- C7, counterexample: on a stream with a valid 2x1 header and a single sample, readPGMText
fails (returns 1) after having stored the first sample: the buffer [0, 0] is left as [7, 0].
The dimensions line is well formed, so `w` and `h` are assigned by `sscanf` and their initial
values (0 here) play no part. -/
theorem failed_decode_modifies_buffer :
    readPGMText (some (bytes "P2\n2 1\n255\n7\n")) 0 0 [0, 0] 2 1 = some (1, [7, 0]) ∧
      ([7, 0] : List Nat) ≠ [0, 0] := by
  decide

/-- C7, amended: readPGMText does not roll back.  With a buffer of at least
n = width*height samples: when the header phase fails (open failure, bad tag, end of file,
dimension or maximum value mismatch) the call returns 1 and the buffer is unchanged;
otherwise, with k the number of sample tokens (at most n) that convert at the start of the
sample data, the call leaves the k converted samples, in order, at indices 0 to k-1, leaves
every sample from index k on unchanged, and returns 0 when k = n (all width*height samples
were written) and 1 when k < n. -/
theorem readPGMText_no_rollback (file : Option (List Nat)) (w0 h0 : Int) (pixels : List Nat)
    (width height : Int) (n : Nat) (hn : pixelCount width height = some n)
    (hlen : n ≤ pixels.length) :
    (readPGMHeader file w0 h0 width height = none →
      readPGMText file w0 h0 pixels width height = some (1, pixels)) ∧
    (∀ f3, readPGMHeader file w0 h0 width height = some f3 →
      readPGMText file w0 h0 pixels width height
        = some (if (sampleTokens n f3).length = n then 0 else 1,
            sampleTokens n f3 ++ pixels.drop (sampleTokens n f3).length) ∧
      (sampleTokens n f3).length ≤ n ∧ IsByteBuffer (sampleTokens n f3)) := by
  refine ⟨fun h => ?_, fun f3 h => ⟨?_, sampleTokens_length_le n f3, sampleTokens_bytes n f3⟩⟩
  · rw [readPGMText_eq_header, h]
  · rw [readPGMText_eq_header, h]
    simp only [hn]
    have := readPixels_sampleTokens n f3 [] pixels hlen
    simpa using this

/-- Witness of `readPGMText_no_rollback`: the truncated 2x1 stream, whose header is accepted
and whose sample data holds the single token 7. -/
theorem readPGMText_no_rollback_witness :
    (pixelCount 2 1 = some 2 ∧ 2 ≤ ([0, 0] : List Nat).length) ∧
    (readPGMHeader (some (bytes "P2\n2 1\n255\n7\n")) 0 0 2 1 = some (bytes "\n7\n") ∧
      sampleTokens 2 (bytes "\n7\n") = [7]) ∧
    ((readPGMHeader (some (bytes "P2\n2 1\n255\n7\n")) 0 0 2 1 = none →
      readPGMText (some (bytes "P2\n2 1\n255\n7\n")) 0 0 [0, 0] 2 1 = some (1, [0, 0])) ∧
    (∀ f3, readPGMHeader (some (bytes "P2\n2 1\n255\n7\n")) 0 0 2 1 = some f3 →
      readPGMText (some (bytes "P2\n2 1\n255\n7\n")) 0 0 [0, 0] 2 1
        = some (if (sampleTokens 2 f3).length = 2 then 0 else 1,
            sampleTokens 2 f3 ++ ([0, 0] : List Nat).drop (sampleTokens 2 f3).length) ∧
      (sampleTokens 2 f3).length ≤ 2 ∧ IsByteBuffer (sampleTokens 2 f3))) :=
  ⟨⟨by decide, by decide⟩, ⟨by decide, by decide⟩,
    readPGMText_no_rollback (some (bytes "P2\n2 1\n255\n7\n")) 0 0 [0, 0] 2 1 2
      (by decide) (by decide)⟩

/-- C8, evaluation at the failing input: the dimensions line declares width 1 and height
1255 and the maximum value is 5, yet with expected dimensions 1x1 readPGMText returns 0:
`fgets` stops after 15 bytes of the line, `sscanf` reads 1 and 1, and `fscanf` takes the
rest of the line, 255, as the maximum value. -/
theorem header_accepts_split_line (w0 h0 : Int) :
    readPGMText (some (bytes "P2\n1             1255\n5\n")) w0 h0 [0] 1 1
      = some (0, [5]) := by
  rfl

/-- C9, evaluation at the failing input: a stream with a valid 1x1 header (a comment line,
`1 1`, `255`) and no sample at all is decoded with return code 0: the comment line is
longer than the 15 bytes `fgets` reads, so its tail is taken for the header and the sample. -/
theorem truncated_accepted_after_long_comment (w0 h0 : Int) :
    readPGMText (some (bytes "P2\n#aaaaaaaaaaaaaa1 1            255 7\n1 1\n255\n"))
      w0 h0 [0] 1 1 = some (0, [7]) := by
  rfl

/-! ## writePGMBinary -/

/-- C11: for a raster of n = width*height samples, writePGMBinary returns 0 and writes
exactly the ASCII header "P5\n# Created by stego_lsb.c\n<width> <height>\n255\n" immediately
followed by the n sample bytes, unchanged and in buffer order, with nothing between or
after; the total length is the header length plus n. -/
theorem writePGMBinary_format (pixels : List Nat) (width height : Int)
    (hrange : width * height ≤ INT_MAX)
    (hlen : (pixels.length : Int) = width * height) :
    ∃ header out : List Nat,
      header = bytes "P5\n# Created by stego_lsb.c\n" ++ printInt width ++ [32]
        ++ printInt height ++ bytes "\n255\n" ∧
      writePGMBinary true pixels width height = some (0, out) ∧
      out = header ++ pixels ∧
      out.length = header.length + pixels.length ∧
      (∀ (i p : Nat), pixels[i]? = some p → out[header.length + i]? = some p) ∧
      (0 ≤ width → IsDecimalOf (printInt width) width.toNat) ∧
      (0 ≤ height → IsDecimalOf (printInt height) height.toNat) := by
  refine ⟨_, _, rfl, ?_, rfl, List.length_append _ _, fun i p hp => ?_, fun hw => ?_,
    fun hh => ?_⟩
  · have h0 : INT_MIN ≤ width * height := by
      rw [← hlen]; unfold INT_MIN; omega
    have h1 : ¬ width * height < 0 := by omega
    have h2 : (width * height).toNat = pixels.length := by omega
    simp only [writePGMBinary, h0, hrange, h1, h2]
    simp
  · rw [List.getElem?_append_right (by omega)]
    simpa using hp
  · rw [printInt_of_nonneg _ hw]; exact printNat_isDecimalOf _
  · rw [printInt_of_nonneg _ hh]; exact printNat_isDecimalOf _

/-- Witness of `writePGMBinary_format` on a 2x2 raster. -/
theorem writePGMBinary_format_witness :
    ((2 : Int) * 2 ≤ INT_MAX ∧ (([0, 255, 17, 9] : List Nat).length : Int) = 2 * 2) ∧
    ∃ header out : List Nat,
      header = bytes "P5\n# Created by stego_lsb.c\n" ++ printInt 2 ++ [32]
        ++ printInt 2 ++ bytes "\n255\n" ∧
      writePGMBinary true [0, 255, 17, 9] 2 2 = some (0, out) ∧
      out = header ++ [0, 255, 17, 9] ∧
      out.length = header.length + ([0, 255, 17, 9] : List Nat).length ∧
      (∀ (i p : Nat), ([0, 255, 17, 9] : List Nat)[i]? = some p →
        out[header.length + i]? = some p) ∧
      ((0 : Int) ≤ 2 → IsDecimalOf (printInt 2) (2 : Int).toNat) ∧
      ((0 : Int) ≤ 2 → IsDecimalOf (printInt 2) (2 : Int).toNat) :=
  ⟨⟨by decide, by decide⟩,
    writePGMBinary_format [0, 255, 17, 9] 2 2 (by decide) (by decide)⟩

/-! ## The end-to-end example -/

/-- C12, counterexample: for the 2x2 cover [10,20,30,40] and secret [255,0,128,64] embedLSB
does not leave [15,16,38,44]: it leaves [15,16,24,36], which differs at indices 2 and 3. -/
theorem end_to_end_example_differs :
    embedLSB [10, 20, 30, 40] [255, 0, 128, 64] 2 2 ≠ some [15, 16, 38, 44] := by
  decide

/-- C12, amended: for the 2x2 cover [10,20,30,40] and secret [255,0,128,64] embedLSB leaves
the cover buffer equal to [15,16,24,36] (30 & 0xF0 = 16 and 128 >> 4 = 8 give 24;
40 & 0xF0 = 32 and 64 >> 4 = 4 give 36). -/
theorem end_to_end_example :
    embedLSB [10, 20, 30, 40] [255, 0, 128, 64] 2 2 = some [15, 16, 24, 36] ∧
      (30 &&& 0xF0) ||| (128 >>> 4) = 24 ∧ (40 &&& 0xF0) ||| (64 >>> 4) = 36 := by
  decide

/-! ## Error bounds, idempotence and frame of the transform -/

/-- C16: for cover, secret and output buffers of n = width*height samples (secret samples
8-bit), the sample e recovered by extractLSB after embedLSB at an index i never exceeds the
secret sample s and loses at most the low nibble: 0 <= s - e <= 15, with e = s exactly when
s is a multiple of 16. -/
theorem recovery_error_bound (cover secret output : List Nat) (width height : Int)
    (hrange : width * height ≤ INT_MAX)
    (hcover : (cover.length : Int) = width * height)
    (hsecret : secret.length = cover.length)
    (hout : output.length = cover.length)
    (hsb : IsByteBuffer secret) :
    ∃ stego r, embedLSB cover secret width height = some stego ∧
      extractLSB stego output width height = some r ∧ r.length = secret.length ∧
      ∀ (i s : Nat), secret[i]? = some s →
        ∃ e, r[i]? = some e ∧ e ≤ s ∧ s - e ≤ 15 ∧ (e = s ↔ s % 16 = 0) := by
  have hn := pixelCount_of_length _ _ _ hrange hcover
  obtain ⟨stego, hst, hslen, hsget⟩ := embedLSB_spec cover secret width height cover.length
    hn (le_refl _) (by omega)
  obtain ⟨r, hr, hlen, hget⟩ := extractLSB_spec stego output width height cover.length
    hn (by omega) (by omega)
  refine ⟨stego, r, hst, hr, by omega, fun i s hsi => ?_⟩
  have hi := lt_length_of_getElem? _ _ _ hsi
  have hs := byte_of_getElem? _ hsb _ _ hsi
  have hic : i < cover.length := by omega
  have hstego : stego.getD i 0 = ((cover.getD i 0 / 16) * 16 + s / 16) % 256 := by
    have := hsget i
    rw [if_pos hic, getD_of_getElem? _ _ _ hsi] at this
    exact getD_of_getElem? _ _ _ this
  have he : (((stego.getD i 0) % 16) * 16) % 256 = (s / 16) * 16 := by
    rw [hstego]; omega
  refine ⟨(s / 16) * 16, ?_, by omega, by omega, by omega⟩
  rw [hget i, if_pos hic, he]

/-- Witness of `recovery_error_bound` on a 2x2 raster. -/
theorem recovery_error_bound_witness :
    ((2 : Int) * 2 ≤ INT_MAX ∧ (([10, 20, 30, 40] : List Nat).length : Int) = 2 * 2
      ∧ ([255, 0, 128, 64] : List Nat).length = ([10, 20, 30, 40] : List Nat).length
      ∧ ([0, 0, 0, 0] : List Nat).length = ([10, 20, 30, 40] : List Nat).length
      ∧ IsByteBuffer [255, 0, 128, 64]) ∧
    ∃ stego r, embedLSB [10, 20, 30, 40] [255, 0, 128, 64] 2 2 = some stego ∧
      extractLSB stego [0, 0, 0, 0] 2 2 = some r
      ∧ r.length = ([255, 0, 128, 64] : List Nat).length ∧
      ∀ (i s : Nat), ([255, 0, 128, 64] : List Nat)[i]? = some s →
        ∃ e, r[i]? = some e ∧ e ≤ s ∧ s - e ≤ 15 ∧ (e = s ↔ s % 16 = 0) :=
  ⟨⟨by decide, by decide, by decide, by decide, by decide⟩,
    recovery_error_bound [10, 20, 30, 40] [255, 0, 128, 64] [0, 0, 0, 0] 2 2
      (by decide) (by decide) (by decide) (by decide) (by decide)⟩

/-- C17: for cover and secret buffers of n = width*height 8-bit samples, the sample embedLSB
leaves at an index i < n differs from the original cover sample by at most 15 in absolute
value; the bound 15 is attained, in both directions (cover 0 with secret 255 gives 15,
cover 15 with secret 0 gives 0). -/
theorem stego_distortion_bound (cover secret : List Nat) (width height : Int)
    (hrange : width * height ≤ INT_MAX)
    (hcover : (cover.length : Int) = width * height)
    (hsecret : secret.length = cover.length)
    (hcb : IsByteBuffer cover) (hsb : IsByteBuffer secret) :
    (∃ stego, embedLSB cover secret width height = some stego ∧
      stego.length = cover.length ∧
      ∀ (i c : Nat), cover[i]? = some c →
        ∃ r, stego[i]? = some r ∧ r ≤ c + 15 ∧ c ≤ r + 15 ∧
          |(r : Int) - (c : Int)| ≤ 15) ∧
    embedLSB [0] [255] 1 1 = some [15] ∧ embedLSB [15] [0] 1 1 = some [0] := by
  refine ⟨?_, by decide, by decide⟩
  obtain ⟨stego, hst, hlen, hget⟩ := embedLSB_spec cover secret width height cover.length
    (pixelCount_of_length _ _ _ hrange hcover) (le_refl _) (by omega)
  refine ⟨stego, hst, hlen, fun i c hci => ?_⟩
  have hi := lt_length_of_getElem? _ _ _ hci
  have hc := byte_of_getElem? _ hcb _ _ hci
  have his : i < secret.length := by omega
  have hs : secret.getD i 0 < 256 := by
    rw [List.getD_eq_getElem _ _ his]
    exact hsb _ (List.getElem_mem his)
  refine ⟨((c / 16) * 16 + secret.getD i 0 / 16) % 256, ?_, by omega, by omega, ?_⟩
  · rw [hget i, if_pos hi, getD_of_getElem? _ _ _ hci]
  · rw [abs_le]; omega

/-- Witness of `stego_distortion_bound` on a 2x2 raster. -/
theorem stego_distortion_bound_witness :
    ((2 : Int) * 2 ≤ INT_MAX ∧ (([10, 20, 30, 40] : List Nat).length : Int) = 2 * 2
      ∧ ([255, 0, 128, 64] : List Nat).length = ([10, 20, 30, 40] : List Nat).length
      ∧ IsByteBuffer [10, 20, 30, 40] ∧ IsByteBuffer [255, 0, 128, 64]) ∧
    ((∃ stego, embedLSB [10, 20, 30, 40] [255, 0, 128, 64] 2 2 = some stego ∧
      stego.length = ([10, 20, 30, 40] : List Nat).length ∧
      ∀ (i c : Nat), ([10, 20, 30, 40] : List Nat)[i]? = some c →
        ∃ r, stego[i]? = some r ∧ r ≤ c + 15 ∧ c ≤ r + 15 ∧
          |(r : Int) - (c : Int)| ≤ 15) ∧
    embedLSB [0] [255] 1 1 = some [15] ∧ embedLSB [15] [0] 1 1 = some [0]) :=
  ⟨⟨by decide, by decide, by decide, by decide, by decide⟩,
    stego_distortion_bound [10, 20, 30, 40] [255, 0, 128, 64] 2 2
      (by decide) (by decide) (by decide) (by decide) (by decide)⟩

/-- C18: for cover and secret buffers of n = width*height samples (secret 8-bit), applying embedLSB
with the same secret to the already embedded cover leaves it unchanged:
embed(embed(cover, secret), secret) = embed(cover, secret). -/
theorem embedLSB_idempotent (cover secret : List Nat) (width height : Int)
    (hrange : width * height ≤ INT_MAX)
    (hcover : (cover.length : Int) = width * height)
    (hsecret : secret.length = cover.length)
    (hsb : IsByteBuffer secret) :
    ∃ stego, embedLSB cover secret width height = some stego ∧
      embedLSB stego secret width height = some stego := by
  have hn := pixelCount_of_length _ _ _ hrange hcover
  obtain ⟨stego, hst, hlen, hget⟩ := embedLSB_spec cover secret width height cover.length
    hn (le_refl _) (by omega)
  obtain ⟨r, hr, hrlen, hrget⟩ := embedLSB_spec stego secret width height cover.length
    hn (by omega) (by omega)
  refine ⟨stego, hst, ?_⟩
  rw [hr]
  congr 1
  apply List.ext_getElem?
  intro j
  rw [hrget j]
  by_cases hj : j < cover.length
  · have hs : secret.getD j 0 < 256 := by
      rw [List.getD_eq_getElem _ _ (by omega)]
      exact hsb _ (List.getElem_mem (by omega))
    have h1 := hget j
    rw [if_pos hj] at h1
    rw [if_pos hj, getD_of_getElem? _ _ _ h1, h1]
    congr 1
    omega
  · rw [if_neg hj]

/-- Witness of `embedLSB_idempotent` on a 2x2 raster. -/
theorem embedLSB_idempotent_witness :
    ((2 : Int) * 2 ≤ INT_MAX ∧ (([10, 20, 30, 40] : List Nat).length : Int) = 2 * 2
      ∧ ([255, 0, 128, 64] : List Nat).length = ([10, 20, 30, 40] : List Nat).length
      ∧ IsByteBuffer [255, 0, 128, 64]) ∧
    ∃ stego, embedLSB [10, 20, 30, 40] [255, 0, 128, 64] 2 2 = some stego ∧
      embedLSB stego [255, 0, 128, 64] 2 2 = some stego :=
  ⟨⟨by decide, by decide, by decide, by decide⟩,
    embedLSB_idempotent [10, 20, 30, 40] [255, 0, 128, 64] 2 2
      (by decide) (by decide) (by decide) (by decide)⟩

/-- The loop on the memory state computes the cover of `embedLSBLoop` and hands the secret
array back as it was. -/
theorem embedLSBMemLoop_eq :
    ∀ (todo i : Nat) (cover secret : List Nat),
      embedLSBMemLoop todo i (cover, secret)
        = (embedLSBLoop secret todo i cover).map (fun r => (r, secret)) := by
  intro todo
  induction todo with
  | zero => intro i cover secret; rfl
  | succ todo ih =>
    intro i cover secret
    simp only [embedLSBMemLoop, embedLSBLoop]
    cases hc : cover[i]? with
    | none => rfl
    | some c =>
      cases hs : secret[i]? with
      | none => rfl
      | some s => exact ih _ _ _

theorem embedLSBMem_eq (cover secret : List Nat) (width height : Int) :
    embedLSBMem (cover, secret) width height
      = (embedLSB cover secret width height).map (fun r => (r, secret)) := by
  unfold embedLSBMem embedLSB
  cases pixelCount width height with
  | none => rfl
  | some n => exact embedLSBMemLoop_eq n 0 cover secret

/-- C19: for cover and secret arrays held in distinct storage, each of at least
n = width*height samples, embedLSB completes, leaves every secret sample unchanged, leaves
the length of the cover unchanged and leaves every cover sample at an index >= n unchanged;
when width*height <= 0 it changes nothing. -/
theorem embedLSB_frame (cover secret : List Nat) (width height : Int) (n : Nat)
    (hn : pixelCount width height = some n)
    (hc : n ≤ cover.length) (hs : n ≤ secret.length) :
    (∃ r, embedLSBMem (cover, secret) width height = some (r, secret) ∧
      r.length = cover.length ∧ ∀ j, n ≤ j → r[j]? = cover[j]?) ∧
    (width * height ≤ 0 →
      embedLSBMem (cover, secret) width height = some (cover, secret)) := by
  obtain ⟨r, hr, hlen, hget⟩ := embedLSB_spec cover secret width height n hn hc hs
  refine ⟨⟨r, ?_, hlen, fun j hj => ?_⟩, fun hle => ?_⟩
  · rw [embedLSBMem_eq, hr]; rfl
  · rw [hget j, if_neg (by omega)]
  · have hn0 : n = 0 := by
      unfold pixelCount at hn
      split at hn
      · simp only [Option.some.injEq] at hn
        omega
      · cases hn
    subst hn0
    simp only [embedLSBMem, hn, embedLSBMemLoop]

/-- Witness of `embedLSB_frame`: a 3-sample cover and a 3-sample secret with
width*height = 2. -/
theorem embedLSB_frame_witness :
    (pixelCount 2 1 = some 2 ∧ 2 ≤ ([16, 32, 48] : List Nat).length
      ∧ 2 ≤ ([255, 255, 255] : List Nat).length) ∧
    ((∃ r, embedLSBMem ([16, 32, 48], [255, 255, 255]) 2 1 = some (r, [255, 255, 255]) ∧
      r.length = ([16, 32, 48] : List Nat).length ∧
      ∀ j, 2 ≤ j → r[j]? = ([16, 32, 48] : List Nat)[j]?) ∧
    ((2 : Int) * 1 ≤ 0 →
      embedLSBMem ([16, 32, 48], [255, 255, 255]) 2 1
        = some ([16, 32, 48], [255, 255, 255]))) :=
  ⟨⟨by decide, by decide, by decide⟩,
    embedLSB_frame [16, 32, 48] [255, 255, 255] 2 1 2 (by decide) (by decide) (by decide)⟩

/-! ## Decoding well-formed text streams -/

theorem fgetsChars_line :
    ∀ (l : List Nat) (k : Nat) (r : List Nat), (∀ c ∈ l, c ≠ 10) → l.length < k →
      fgetsChars k (l ++ 10 :: r) = (l ++ [10], r) := by
  intro l
  induction l with
  | nil =>
    intro k r _ hk
    cases k with
    | zero => simp at hk
    | succ k => simp [fgetsChars]
  | cons c l ih =>
    intro k r hl hk
    cases k with
    | zero => simp at hk
    | succ k =>
      have hc : c ≠ 10 := hl c (List.mem_cons_self _ _)
      have hrec := ih k r (fun x hx => hl x (List.mem_cons_of_mem _ hx))
        (by simp only [List.length_cons] at hk; omega)
      rw [List.cons_append]
      simp only [fgetsChars, hc, if_false]
      show (c :: (fgetsChars k (l ++ 10 :: r)).1, (fgetsChars k (l ++ 10 :: r)).2) = _
      rw [hrec]
      rfl

/-- A whole line of at most 15 bytes (newline included) is read by one `fgets`. -/
theorem fgets_line (l r : List Nat) (hl : ∀ c ∈ l, c ≠ 10) (hlen : l.length + 1 ≤ 15) :
    fgets 16 (l ++ 10 :: r) = some (l ++ [10] ++ [0], r) := by
  have h := fgetsChars_line l 15 r hl (by omega)
  cases l with
  | nil => simp only [List.nil_append] at h ⊢; simp only [fgets, h]
  | cons c l =>
    simp only [List.cons_append] at h ⊢
    simp only [fgets, h]
    rfl

theorem cstr_terminated (l : List Nat) (hl : ∀ c ∈ l, c ≠ 0) : cstr (l ++ [0]) = l := by
  induction l with
  | nil => simp [cstr]
  | cons c l ih =>
    have hc : c ≠ 0 := hl c (List.mem_cons_self _ _)
    have := ih (fun x hx => hl x (List.mem_cons_of_mem _ hx))
    simp only [cstr] at this ⊢
    simp [List.takeWhile_cons, hc, this]

theorem printNat_digits (n : Nat) : ∀ c ∈ printNat n, 48 ≤ c ∧ c ≤ 57 :=
  (printNat_isDecimalOf n).2.1

theorem printNat_ne_nil (n : Nat) : printNat n ≠ [] :=
  (printNat_isDecimalOf n).1

/-- The comment loop skips comment lines of at most 15 bytes (newline included) and stops
at the first line that does not start with '#', provided that line also fits. -/
theorem skipComments_short (line r : List Nat)
    (hline : ∀ c ∈ line, c ≠ 10) (hlen : line.length + 1 ≤ 15)
    (hhead : line.head? ≠ some 35) :
    ∀ (comments : List (List Nat)) (fuel : Nat),
      (∀ b ∈ comments, (∀ c ∈ b, c ≠ 10) ∧ b.length + 2 ≤ 15) →
      (comments.flatMap (fun b => 35 :: b ++ [10]) ++ (line ++ 10 :: r)).length < fuel →
      skipComments fuel (comments.flatMap (fun b => 35 :: b ++ [10]) ++ (line ++ 10 :: r))
        = some (line ++ [10] ++ [0], r) := by
  intro comments
  induction comments with
  | nil =>
    intro fuel _ hfuel
    cases fuel with
    | zero => omega
    | succ fuel =>
      simp only [List.flatMap_nil, List.nil_append, skipComments, fgets_line line r hline hlen]
      have : (line ++ [10] ++ [0]).getD 0 0 ≠ 35 := by
        cases line with
        | nil => simp
        | cons c l =>
          simp only [List.head?_cons, ne_eq, Option.some.injEq] at hhead
          simpa using hhead
      rw [if_neg this]
  | cons b comments ih =>
    intro fuel hb hfuel
    cases fuel with
    | zero => omega
    | succ fuel =>
      obtain ⟨hb10, hblen⟩ := hb b (List.mem_cons_self _ _)
      have hline35 : ∀ c ∈ 35 :: b, c ≠ 10 := by
        intro c hc
        rcases List.mem_cons.mp hc with h | h
        · omega
        · exact hb10 c h
      have hf := fgets_line (35 :: b)
        (comments.flatMap (fun b => 35 :: b ++ [10]) ++ (line ++ 10 :: r)) hline35
        (by simp only [List.length_cons]; omega)
      have hshape : (b :: comments).flatMap (fun b => 35 :: b ++ [10]) ++ (line ++ 10 :: r)
          = (35 :: b) ++ 10 :: (comments.flatMap (fun b => 35 :: b ++ [10])
              ++ (line ++ 10 :: r)) := by
        simp [List.flatMap_cons, List.append_assoc]
      rw [hshape] at hfuel ⊢
      simp only [skipComments, hf]
      have h35 : ((35 :: b) ++ [10] ++ [0]).getD 0 0 = 35 := by simp
      rw [if_pos h35]
      apply ih fuel (fun x hx => hb x (List.mem_cons_of_mem _ hx))
      simp only [List.length_append, List.length_cons] at hfuel ⊢
      omega

theorem skipSpaces_append (s : List Nat) :
    ∀ (ws : List Nat), (∀ c ∈ ws, isspace c = true) → skipSpaces (ws ++ s) = skipSpaces s := by
  intro ws
  induction ws with
  | nil => intro _; rfl
  | cons c ws ih =>
    intro h
    have hc := h c (List.mem_cons_self _ _)
    simp only [List.cons_append, skipSpaces, hc, if_true]
    exact ih (fun x hx => h x (List.mem_cons_of_mem _ hx))

theorem scanUChar_skip_spaces (ws s : List Nat) (hws : ∀ c ∈ ws, isspace c = true) :
    scanUChar (ws ++ s) = scanUChar s := by
  simp only [scanUChar, scanItem, skipSpaces_append s ws hws]

/-- What follows a token in a stream of white-space separated tokens is not a digit. -/
theorem tokens_head_not_digit (extra : List Nat)
    (hextra : ∀ c, extra.head? = some c → isdigit c = false)
    (toks : List (List Nat × Nat))
    (htoks : ∀ p ∈ toks, p.1 ≠ [] ∧ ∀ c ∈ p.1, isspace c = true) :
    ∀ c, (toks.flatMap (fun p => p.1 ++ printNat p.2) ++ extra).head? = some c →
      isdigit c = false := by
  intro c hc
  cases toks with
  | nil => exact hextra c (by simpa using hc)
  | cons p ps =>
    obtain ⟨hne, hsp⟩ := htoks p (List.mem_cons_self _ _)
    cases hp : p.1 with
    | nil => exact absurd hp hne
    | cons a as =>
      have ha : isspace a = true := hsp a (by rw [hp]; exact List.mem_cons_self _ _)
      simp only [List.flatMap_cons, hp, List.cons_append, List.head?_cons,
        Option.some.injEq] at hc
      subst hc
      simp only [isspace, Bool.or_eq_true, beq_iff_eq, Bool.and_eq_true,
        decide_eq_true_eq] at ha
      simp only [isdigit, Bool.and_eq_false_imp, decide_eq_true_eq, decide_eq_false_iff_not]
      omega

/-- The sample tokens of a stream of numbers separated by white space: every number is a
token, converted to its value modulo 256 when it fits an `unsigned long` and to 255
otherwise. -/
theorem sampleTokens_tokens (extra : List Nat)
    (hextra : ∀ c, extra.head? = some c → isdigit c = false) :
    ∀ (toks : List (List Nat × Nat)),
      (∀ p ∈ toks, p.1 ≠ [] ∧ ∀ c ∈ p.1, isspace c = true) →
      sampleTokens toks.length (toks.flatMap (fun p => p.1 ++ printNat p.2) ++ extra)
        = toks.map (fun p => min p.2 ULONG_MAX % 256) := by
  intro toks
  induction toks with
  | nil => intro _; rfl
  | cons p ps ih =>
    intro htoks
    have hps : ∀ q ∈ ps, q.1 ≠ [] ∧ ∀ c ∈ q.1, isspace c = true :=
      fun q hq => htoks q (List.mem_cons_of_mem _ hq)
    have hscan : scanUChar ((p :: ps).flatMap (fun p => p.1 ++ printNat p.2) ++ extra)
        = some (min p.2 ULONG_MAX % 256,
            ps.flatMap (fun p => p.1 ++ printNat p.2) ++ extra) := by
      have hshape : (p :: ps).flatMap (fun p => p.1 ++ printNat p.2) ++ extra
          = p.1 ++ (printNat p.2 ++ (ps.flatMap (fun p => p.1 ++ printNat p.2) ++ extra)) := by
        simp [List.flatMap_cons, List.append_assoc]
      rw [hshape, scanUChar_skip_spaces _ _ (htoks p (List.mem_cons_self _ _)).2]
      exact scanUChar_printNat _ _ (tokens_head_not_digit extra hextra ps hps)
    simp only [List.length_cons, sampleTokens, hscan, List.map_cons, ih hps]

/-- Numbers written one per line are tokens separated by white space. -/
theorem lines_eq_tokens (extra : List Nat) :
    ∀ (vals : List Nat),
      10 :: (vals.flatMap (fun v => printNat v ++ [10]) ++ extra)
        = (vals.map (fun v => ([10], v))).flatMap (fun p => p.1 ++ printNat p.2)
            ++ 10 :: extra := by
  intro vals
  induction vals with
  | nil => rfl
  | cons v vs ih =>
    simp only [List.flatMap_cons, List.map_cons, List.append_assoc, List.cons_append,
      List.nil_append, List.cons.injEq, true_and]
    rw [← ih]

/-- The path of readPGMText through an accepted header: the call continues with the sample
loop on the rest of the stream. -/
theorem readPGMText_header_accept (f0 b0 f1 b1 f2 f3 : List Nat) (w0 h0 : Int)
    (pixels : List Nat) (width height : Int) (n : Nat)
    (h1 : fgets 16 f0 = some (b0, f1)) (hP : b0.getD 0 0 = 80) (h2 : b0.getD 1 0 = 50)
    (h3 : skipComments (f1.length + 1) f1 = some (b1, f2))
    (h4 : scanInt f2 = some (255, f3))
    (hd : sscanfDims (cstr b1) w0 h0 = (width, height))
    (hn : pixelCount width height = some n) :
    readPGMText (some f0) w0 h0 pixels width height = readPixels n 0 f3 pixels := by
  simp only [readPGMText, h1, hP, h2, h3, h4, hd, hn, ne_eq, not_true_eq_false, or_self,
    if_false]

/-- `sscanf` reads both dimensions from a line `<w> <h>\n` of two non-negative `int`s. -/
theorem sscanfDims_line (w h : Nat) (hw : (w : Int) ≤ INT_MAX) (hh : (h : Int) ≤ INT_MAX)
    (w0 h0 : Int) :
    sscanfDims (printNat w ++ 32 :: printNat h ++ [10]) w0 h0 = ((w : Int), (h : Int)) := by
  have hscan1 : scanInt (printNat w ++ 32 :: printNat h ++ [10])
      = some ((w : Int), 32 :: (printNat h ++ [10])) := by
    have := scanInt_printNat w hw (32 :: (printNat h ++ [10])) (by
      intro c hc
      simp only [List.head?_cons, Option.some.injEq] at hc
      subst hc; rfl)
    simpa [List.append_assoc] using this
  have hscan2 : scanInt (32 :: (printNat h ++ [10])) = some ((h : Int), [10]) := by
    rw [scanInt_skip_space 32 _ (by decide)]
    apply scanInt_printNat h hh
    intro c hc
    simp only [List.head?_cons, Option.some.injEq] at hc
    subst hc; rfl
  simp only [sscanfDims, hscan1, hscan2]

/-- A header whose lines fit the line buffer is accepted: after a tag line, comment lines
of at most 15 bytes, a dimensions line of at most 15 bytes holding the expected dimensions
and the maximum value 255, the call continues with the sample loop on the data that
follows. -/
theorem readPGMText_fit_header (width height : Int) (hw : 0 ≤ width) (hh : 0 ≤ height)
    (hwmax : width ≤ INT_MAX) (hhmax : height ≤ INT_MAX)
    (comments : List (List Nat))
    (hcom : ∀ b ∈ comments, (∀ c ∈ b, c ≠ 10) ∧ b.length + 2 ≤ 15)
    (hline : (printInt width ++ [32] ++ printInt height ++ [10]).length ≤ 15)
    (data : List Nat) (hdata : ∀ c, data.head? = some c → isdigit c = false)
    (n : Nat) (hn : pixelCount width height = some n)
    (pixels : List Nat) (w0 h0 : Int) :
    readPGMText (some (bytes "P2\n" ++ comments.flatMap (fun b => 35 :: b ++ [10])
        ++ (printInt width ++ [32] ++ printInt height ++ [10]) ++ bytes "255" ++ data))
      w0 h0 pixels width height = readPixels n 0 data pixels := by
  rw [printInt_of_nonneg _ hw, printInt_of_nonneg _ hh] at hline ⊢
  have hwc : ((width.toNat : Nat) : Int) = width := by omega
  have hhc : ((height.toNat : Nat) : Int) = height := by omega
  have hWmax : ((width.toNat : Nat) : Int) ≤ INT_MAX := by rw [hwc]; exact hwmax
  have hHmax : ((height.toNat : Nat) : Int) ≤ INT_MAX := by rw [hhc]; exact hhmax
  generalize width.toNat = W at hline hwc hWmax ⊢
  generalize height.toNat = H at hline hhc hHmax ⊢
  have hb1 : bytes "P2\n" = [80, 50] ++ [10] := by decide
  have hb2 : bytes "255" = [50, 53, 53] := by decide
  -- the dimensions line without its newline
  have hlinechars : ∀ c ∈ printNat W ++ 32 :: printNat H, c ≠ 10 ∧ c ≠ 0 := by
    intro c hc
    rcases List.mem_append.mp hc with h | h
    · have := printNat_digits W c h; omega
    · rcases List.mem_cons.mp h with h | h
      · omega
      · have := printNat_digits H c h; omega
  have hlinelen : (printNat W ++ 32 :: printNat H).length + 1 ≤ 15 := by
    simp only [List.length_append, List.length_cons, List.length_nil] at hline ⊢
    omega
  have hhead : (printNat W ++ 32 :: printNat H).head? ≠ some 35 := by
    cases hp : printNat W with
    | nil => exact absurd hp (printNat_ne_nil W)
    | cons d ds =>
      have := printNat_digits W d (by rw [hp]; exact List.mem_cons_self _ _)
      simp only [List.cons_append, List.head?_cons, ne_eq, Option.some.injEq]
      omega
  have hshape : bytes "P2\n" ++ comments.flatMap (fun b => 35 :: b ++ [10])
        ++ (printNat W ++ [32] ++ printNat H ++ [10]) ++ bytes "255" ++ data
      = [80, 50] ++ 10 :: (comments.flatMap (fun b => 35 :: b ++ [10])
          ++ ((printNat W ++ 32 :: printNat H) ++ 10 :: ([50, 53, 53] ++ data))) := by
    rw [hb1, hb2]
    simp [List.append_assoc]
  rw [hshape]
  have h1 := fgets_line [80, 50] (comments.flatMap (fun b => 35 :: b ++ [10])
      ++ ((printNat W ++ 32 :: printNat H) ++ 10 :: ([50, 53, 53] ++ data)))
    (by decide) (by decide)
  have h3 := skipComments_short (printNat W ++ 32 :: printNat H) ([50, 53, 53] ++ data)
    (fun c hc => (hlinechars c hc).1) hlinelen hhead comments _ hcom (Nat.lt_succ_self _)
  have h4 : scanInt ([50, 53, 53] ++ data) = some (255, data) := by
    have hp : printNat 255 = [50, 53, 53] := by decide
    have := scanInt_printNat 255 (by decide) data hdata
    rw [hp] at this
    exact this
  have hd : sscanfDims (cstr ((printNat W ++ 32 :: printNat H) ++ [10] ++ [0])) w0 h0
      = (width, height) := by
    rw [cstr_terminated]
    · have := sscanfDims_line W H hWmax hHmax w0 h0
      rw [hwc, hhc] at this
      simpa [List.append_assoc] using this
    · intro c hc
      rcases List.mem_append.mp hc with h | h
      · exact (hlinechars c h).2
      · simp only [List.mem_singleton] at h; omega
  exact readPGMText_header_accept _ _ _ _ _ _ w0 h0 pixels width height n
    h1 (by decide) (by decide) h3 h4 hd hn

/-- Decoding a stream whose header lines fit the line buffer and whose sample data is a
sequence of numbers separated by white space: the call returns 0 and the buffer holds every
token modulo 256 (255 for a token above the range of `unsigned long`); what follows the last
token is not looked at beyond its first character. -/
theorem readPGMText_decode (width height : Int) (hw : 0 ≤ width) (hh : 0 ≤ height)
    (hwmax : width ≤ INT_MAX) (hhmax : height ≤ INT_MAX)
    (comments : List (List Nat))
    (hcom : ∀ b ∈ comments, (∀ c ∈ b, c ≠ 10) ∧ b.length + 2 ≤ 15)
    (hline : (printInt width ++ [32] ++ printInt height ++ [10]).length ≤ 15)
    (toks : List (List Nat × Nat))
    (htoks : ∀ p ∈ toks, p.1 ≠ [] ∧ ∀ c ∈ p.1, isspace c = true)
    (extra : List Nat) (hextra : ∀ c, extra.head? = some c → isdigit c = false)
    (hrange : width * height ≤ INT_MAX)
    (hlen : (toks.length : Int) = width * height)
    (pixels : List Nat) (hbuf : pixels.length = toks.length) (w0 h0 : Int) :
    readPGMText (some (bytes "P2\n" ++ comments.flatMap (fun b => 35 :: b ++ [10])
        ++ (printInt width ++ [32] ++ printInt height ++ [10]) ++ bytes "255"
        ++ (toks.flatMap (fun p => p.1 ++ printNat p.2) ++ extra)))
      w0 h0 pixels width height
        = some (0, toks.map (fun p => min p.2 ULONG_MAX % 256)) := by
  rw [readPGMText_fit_header width height hw hh hwmax hhmax comments hcom hline _
    (tokens_head_not_digit extra hextra toks htoks) toks.length
    (pixelCount_of_length _ _ _ hrange hlen) pixels w0 h0]
  have hloop := readPixels_sampleTokens toks.length
    (toks.flatMap (fun p => p.1 ++ printNat p.2) ++ extra) [] pixels (by omega)
  rw [sampleTokens_tokens extra hextra toks htoks] at hloop
  simp only [List.length_nil, List.nil_append, List.length_map, if_true] at hloop
  rw [hloop, List.drop_of_length_le (by omega)]
  simp

/-- C13, evaluation at the failing input: a stream made of the line "P2", one comment line
"# this comment is long" (23 bytes with its newline), the dimensions line "2 1", the line
"255" and the two samples 7 and 9 is rejected by readPGMText with expected dimensions 2x1
(return 1, buffer untouched), for every initial value of `w`, `h` and every buffer: `fgets`
reads 15 bytes of the comment, the tail "is long" is taken for the dimensions line and the
width 2 for the maximum value. -/
theorem long_comment_not_skipped (w0 h0 : Int) (buf : List Nat) :
    readPGMText (some (bytes "P2\n# this comment is long\n2 1\n255\n7\n9\n")) w0 h0 buf 2 1
      = some (1, buf) :=
  readPGMText_maxVal_reject _ (bytes "P2\n" ++ [0])
    (bytes "# this comment is long\n2 1\n255\n7\n9\n") (bytes "is long\n" ++ [0])
    (bytes "2 1\n255\n7\n9\n") (bytes " 1\n255\n7\n9\n") 2 w0 h0 buf 2 1
    (by decide) (by decide) (by decide) (by decide) (by decide) (by decide)

/-- A positive factor of a product within `int` is within `int`. -/
theorem le_INT_MAX_of_mul (a b : Int) (ha : 1 ≤ a) (hb : 1 ≤ b)
    (h : a * b ≤ INT_MAX) : a ≤ INT_MAX ∧ b ≤ INT_MAX := by
  have h1 : 0 ≤ a * (b - 1) := mul_nonneg (by omega) (by omega)
  have h2 : 0 ≤ (a - 1) * b := mul_nonneg (by omega) (by omega)
  have e1 : a * (b - 1) = a * b - a := by ring
  have e2 : (a - 1) * b = a * b - b := by ring
  constructor <;> omega

/-- C15: for width >= 1 and height >= 1 whose dimensions line "<width> <height>\n" is at
most 15 bytes long, and width*height samples in [0,255], readPGMText with expected
dimensions (width, height) on the stream "P2\n<width> <height>\n255\n" followed by one
decimal sample per line returns 0 and fills the buffer with exactly those samples in order,
for every initial value of `w`, `h`; the bytes `extra` after the last sample line are
ignored. -/
theorem readPGMText_comment_free (width height : Int) (hw : 1 ≤ width) (hh : 1 ≤ height)
    (hline : (printInt width ++ [32] ++ printInt height ++ [10]).length ≤ 15)
    (samples : List Nat) (hrange : width * height ≤ INT_MAX)
    (hlen : (samples.length : Int) = width * height)
    (hb : IsByteBuffer samples)
    (pixels : List Nat) (hbuf : pixels.length = samples.length)
    (extra : List Nat) (w0 h0 : Int) :
    readPGMText (some (bytes "P2\n" ++ printInt width ++ [32] ++ printInt height
        ++ bytes "\n255\n" ++ samples.flatMap (fun v => printNat v ++ [10]) ++ extra))
      w0 h0 pixels width height = some (0, samples) := by
  obtain ⟨hwmax, hhmax⟩ := le_INT_MAX_of_mul width height hw hh hrange
  have h := readPGMText_decode width height (by omega) (by omega) hwmax hhmax [] (by simp)
    hline (samples.map (fun v => ([10], v)))
    (by
      intro p hp
      obtain ⟨v, _, rfl⟩ := List.mem_map.mp hp
      exact ⟨by simp, fun c hc => by
        simp only [List.mem_singleton] at hc
        subst hc; rfl⟩)
    (10 :: extra)
    (by
      intro c hc
      simp only [List.head?_cons, Option.some.injEq] at hc
      subst hc; rfl)
    hrange (by simpa using hlen) pixels (by simpa using hbuf) w0 h0
  have hmap : (samples.map (fun v => (([10] : List Nat), v))).map
      (fun p => min p.2 ULONG_MAX % 256) = samples := by
    rw [List.map_map]
    conv_rhs => rw [← List.map_id samples]
    apply List.map_congr_left
    intro v hv
    have := hb v hv
    show min v ULONG_MAX % 256 = v
    unfold ULONG_MAX
    omega
  have hb1 : bytes "\n255\n" = [10] ++ bytes "255" ++ [10] := by decide
  rw [hmap, ← lines_eq_tokens extra samples] at h
  rw [← h, hb1]
  simp [List.append_assoc]

/-- Witness of `readPGMText_comment_free`: a 2x1 stream with trailing bytes. -/
theorem readPGMText_comment_free_witness :
    ((1 : Int) ≤ 2 ∧ (1 : Int) ≤ 1 ∧
      (printInt 2 ++ [32] ++ printInt 1 ++ [10]).length ≤ 15 ∧
      (2 : Int) * 1 ≤ INT_MAX ∧ (([7, 200] : List Nat).length : Int) = 2 * 1 ∧
      IsByteBuffer [7, 200] ∧ ([0, 0] : List Nat).length = ([7, 200] : List Nat).length) ∧
    readPGMText (some (bytes "P2\n" ++ printInt 2 ++ [32] ++ printInt 1
        ++ bytes "\n255\n" ++ [7, 200].flatMap (fun v => printNat v ++ [10])
        ++ bytes "trailing 12 bytes"))
      5 6 [0, 0] 2 1 = some (0, [7, 200]) :=
  ⟨⟨by decide, by decide, by decide, by decide, by decide, by decide, by decide⟩,
    readPGMText_comment_free 2 1 (by decide) (by decide) (by decide) [7, 200] (by decide)
      (by decide) (by decide) [0, 0] (by decide) (bytes "trailing 12 bytes") 5 6⟩

end StegoLSB
